import Mathlib

/-!
Verification development for the FocusFire draft/finalize engine.

The TypeScript sources are shallowly embedded as pure Lean functions:

* `packages/focusdoc-engine/markdown/parser.ts` (`parseDocument`,
  `stringifyDocument`) together with the fragment of its external
  collaborators `gray-matter` (frontmatter delimiter parsing) and `js-yaml`
  (flat string-scalar mappings) that the engine exercises;
* `packages/focusdoc-engine/draft-manager.ts` (`DraftManager`): the
  draft/finalize state machine over the `isomorphic-git` substrate, which is
  modelled as an explicit repository state (branches, commit store, index,
  working file, checked-out branch).

Commit identifiers are modelled as natural numbers allocated from a fresh
counter; a git tree is modelled by the content of the single tracked file
`content.md` (an `Option String`, `none` meaning the file is absent), which
determines the tree object in a content-addressed store with one tracked
path.  All operations are executable and state is passed explicitly; a
thrown JavaScript exception is an `Except.error` paired with the state at
the moment of the throw.
-/

set_option autoImplicit false

namespace FocusFire

/-! ## Association-list helpers (refs and the commit store) -/

/-- First value bound to `key`, if any. -/
def lookupKey {α β : Type} [DecidableEq α] (key : α) : List (α × β) → Option β
  | [] => none
  | (k, v) :: rest => if k = key then some v else lookupKey key rest

/-- Bind `key` to `val`, replacing an existing binding in place. -/
def setKey {α β : Type} [DecidableEq α] (key : α) (val : β) : List (α × β) → List (α × β)
  | [] => [(key, val)]
  | (k, v) :: rest => if k = key then (key, val) :: rest else (k, v) :: setKey key val rest

/-- Remove every binding of `key`. -/
def removeKey {α β : Type} [DecidableEq α] (key : α) : List (α × β) → List (α × β)
  | [] => []
  | (k, v) :: rest => if k = key then removeKey key rest else (k, v) :: removeKey key rest

@[simp] theorem lookupKey_nil {α β : Type} [DecidableEq α] (key : α) :
    lookupKey (β := β) key [] = none := rfl

@[simp] theorem lookupKey_cons {α β : Type} [DecidableEq α] (key k : α) (v : β)
    (rest : List (α × β)) :
    lookupKey key ((k, v) :: rest) = if k = key then some v else lookupKey key rest := rfl

theorem lookupKey_setKey_self {α β : Type} [DecidableEq α] (key : α) (val : β) :
    ∀ l : List (α × β), lookupKey key (setKey key val l) = some val := by
  intro l
  induction l with
  | nil => simp [setKey, lookupKey]
  | cons p rest ih =>
      obtain ⟨k, v⟩ := p
      by_cases h : k = key
      · simp [setKey, h, lookupKey]
      · simp [setKey, h, lookupKey, ih]

theorem lookupKey_setKey_other {α β : Type} [DecidableEq α] (key key2 : α) (val : β)
    (hne : key ≠ key2) :
    ∀ l : List (α × β), lookupKey key2 (setKey key val l) = lookupKey key2 l := by
  intro l
  induction l with
  | nil => simp [setKey, lookupKey, hne]
  | cons p rest ih =>
      obtain ⟨k, v⟩ := p
      by_cases h : k = key
      · subst h
        simp [setKey, lookupKey, hne, ih]
      · simp [setKey, h, lookupKey, ih]

theorem lookupKey_removeKey_other {α β : Type} [DecidableEq α] (key key2 : α)
    (hne : key ≠ key2) :
    ∀ l : List (α × β), lookupKey key2 (removeKey key l) = lookupKey key2 l := by
  intro l
  induction l with
  | nil => simp [removeKey]
  | cons p rest ih =>
      obtain ⟨k, v⟩ := p
      by_cases h : k = key
      · subst h
        simp [removeKey, lookupKey, hne, ih]
      · simp [removeKey, h, lookupKey, ih]

/-! ## Content codec: `markdown/parser.ts` with its collaborators

`parseDocument` delegates to `gray-matter`'s `parseMatter` and
`stringifyDocument` to `js-yaml`'s `dump`.  The YAML fragment the engine
round-trips through this codec is a flat mapping of string keys to plain
string scalars, so metadata is embedded as `List (String × String)` and the
two YAML collaborators as the line codec `k ++ ": " ++ v` (one line per
entry, `yaml.dump(..., lineWidth: -1).trimEnd()` produces exactly these
lines joined by a newline).  The character-level helpers below follow
`gray-matter@4.0.3` `parseMatter`: check the opening `---` delimiter, reject
a fourth `-`, split at the first occurrence of `"\n---"`, parse the block
before it, and strip one `\r` and one `\n` from the remainder. -/

/-- Flat string-scalar metadata mapping, the fragment of
`Record<string, unknown>` that the engine writes and reads back. -/
abbrev Metadata := List (String × String)

/-- `metadata` and `content` as returned by `parseDocument`. -/
structure ParsedDocument where
  metadata : Metadata
  content : String
deriving Repr, DecidableEq

/-- Boolean pattern-is-a-leading-segment test on character lists
(JavaScript `String.prototype.startsWith`). -/
def isPre : List Char → List Char → Bool
  | [], _ => true
  | _ :: _, [] => false
  | p :: ps, c :: cs => p = c && isPre ps cs

/-- Split the input at the first occurrence of `pat` (JavaScript
`String.prototype.indexOf` followed by two `slice`s); `none` when `pat`
does not occur. -/
def splitAtPat (pat : List Char) : List Char → Option (List Char × List Char)
  | [] => none
  | c :: rest =>
    if isPre pat (c :: rest) then some ([], (c :: rest).drop pat.length)
    else
      match splitAtPat pat rest with
      | some pr => some (c :: pr.1, pr.2)
      | none => none

/-- Split a character list into its newline-separated lines. -/
def linesOf : List Char → List (List Char)
  | [] => [[]]
  | c :: cs =>
    if c = '\n' then [] :: linesOf cs
    else
      match linesOf cs with
      | [] => [[c]]
      | l :: ls => (c :: l) :: ls

/-- Join lines with single newlines (no trailing newline). -/
def joinLines : List (List Char) → List Char
  | [] => []
  | [l] => l
  | l :: ls => l ++ '\n' :: joinLines ls

/-- One dumped YAML mapping line, `key: value`. -/
def yamlLineOf (kv : String × String) : List Char :=
  kv.1.data ++ ':' :: ' ' :: kv.2.data

/-- Model of `js-yaml` `yaml.dump(metadata, lineWidth: -1).trimEnd()` on a
flat string-scalar mapping: the `key: value` lines joined by newlines. -/
def yamlDumpChars (m : Metadata) : List Char :=
  joinLines (m.map yamlLineOf)

/-- Model of the `js-yaml` loader on one mapping line: split at the first
`": "`; lines without the separator (notably empty ones) yield nothing. -/
def yamlLoadLine (line : List Char) : Option (String × String) :=
  match splitAtPat [':', ' '] line with
  | some pr => some (⟨pr.1⟩, ⟨pr.2⟩)
  | none => none

/-- Model of the `js-yaml` loader on a frontmatter block. -/
def yamlLoadChars (block : List Char) : Metadata :=
  (linesOf block).filterMap yamlLoadLine

/-- `gray-matter` content cleanup: strip one `\r`. -/
def stripCr : List Char → List Char
  | '\r' :: rest => rest
  | l => l

/-- `gray-matter` content cleanup: strip one `\n`. -/
def stripLf : List Char → List Char
  | '\n' :: rest => rest
  | l => l

/-- `gray-matter@4.0.3` `parseMatter` on the default `---` delimiters (the
engine never emits a language tag after the opening delimiter): an input
not opening with `---`, or continuing with a fourth `-`, is all content
with empty data; otherwise the block before the first `"\n---"` is the
frontmatter and the rest, with one `\r` and one `\n` stripped, the
content.  When the closing delimiter is missing the whole remainder is the
block and the content is empty. -/
def matterChars (input : List Char) : Metadata × List Char :=
  if isPre ['-', '-', '-'] input = false then ([], input)
  else if (input.drop 3).head? = some '-' then ([], input)
  else
    let str := input.drop 3
    match splitAtPat ['\n', '-', '-', '-'] str with
    | none => (yamlLoadChars str, [])
    | some pr => (yamlLoadChars pr.1, stripLf (stripCr pr.2))

/-- `parseDocument` from `markdown/parser.ts`: `gray-matter` on the raw
string; the parsed data is a mapping by construction of the model (the
source guards against non-object and array data), and the content is never
null. -/
def parseDocument (rawContent : String) : ParsedDocument :=
  let pr := matterChars rawContent.data
  ⟨pr.1, ⟨pr.2⟩⟩

/-- `stringifyDocument` from `markdown/parser.ts`: empty metadata produces
the empty delimited block `---\n---`, otherwise the dumped YAML block is
wrapped in delimiters; the content follows after a blank line. -/
def stringifyDocument (metadata : Metadata) (content : String) : String :=
  let yamlBlock : String := if metadata.length = 0 then "" else ⟨yamlDumpChars metadata⟩
  let frontmatter := if yamlBlock = "" then "---\n---" else "---\n" ++ yamlBlock ++ "\n---"
  frontmatter ++ "\n\n" ++ content

/-! ## Version substrate: the `isomorphic-git` repository state

`git/repository.ts` pins the single tracked path `CONTENT_FILE = "content.md"`
and the fixed identity `DEFAULT_AUTHOR = FocusDoc`.  A commit carries its
parent oids, the tree (content of `content.md`, `none` when absent), the
message and the author/committer signatures; signatures are optional because
`draft-manager.ts` guards every access with `?.`. -/

/-- An author/committer signature: name plus second-granularity timestamp. -/
structure Sig where
  name : String
  timestamp : Nat
deriving Repr, DecidableEq

/-- A commit object as surfaced by `git.readCommit`. -/
structure Commit where
  parents : List Nat
  tree : Option String
  message : String
  author : Option Sig
  committer : Option Sig
deriving Repr, DecidableEq

/-- The repository: branch refs, the commit store, a fresh-oid counter, the
working copy and index entry for `content.md`, and the checked-out branch. -/
structure RepoState where
  branches : List (String × Nat)
  commits : List (Nat × Commit)
  nextOid : Nat
  workFile : Option String
  indexFile : Option String
  headBranch : String
deriving Repr, DecidableEq

/-- A freshly initialized repository (`GitRepository.initialize` on a new
IndexedDB store): no refs, no commits, `main` is the nominal head. -/
def emptyRepo : RepoState :=
  { branches := [], commits := [], nextOid := 0,
    workFile := none, indexFile := none, headBranch := "main" }

/-- `git.resolveRef` (refs/heads only): the branch head, `none` models the
`NotFoundError` throw. -/
def resolveRef (r : RepoState) (branch : String) : Option Nat :=
  lookupKey branch r.branches

/-- `git.readCommit`: the stored commit object. -/
def readCommit (r : RepoState) (oid : Nat) : Option Commit :=
  lookupKey oid r.commits

/-- `git.writeRef` with `force: true`. -/
def writeRef (r : RepoState) (branch : String) (oid : Nat) : RepoState :=
  { r with branches := setKey branch oid r.branches }

/-- `git.listBranches().includes(name)`. -/
def hasBranch (r : RepoState) (name : String) : Bool :=
  (lookupKey name r.branches).isSome

/-- The `DEFAULT_AUTHOR` signature stamped with the clock reading of the
current operation. -/
def mkSig (ts : Nat) : Sig := ⟨"FocusDoc", ts⟩

/-- `isomorphic-git`'s `normalizeNewlines` on a message: remove every
carriage return, strip leading newlines, and collapse the trailing
newlines to exactly one — the result always ends with a newline. -/
def normalizeMessageChars (l : List Char) : List Char :=
  ((((l.filter fun c => c != '\r').dropWhile fun c => c == '\n').reverse.dropWhile
      fun c => c == '\n').reverse) ++ ['\n']

/-- The message as a commit object stores it: `GitCommit.render` writes
`normalizeNewlines(message)`, and `readCommit`/`log` surface it through the
idempotent `justMessage` normalization, so the message read back always
carries the trailing newline. -/
def normalizeMessage (m : String) : String := ⟨normalizeMessageChars m.data⟩

/-- `git.commit` with explicit `parent` and `tree`: store a fresh commit
(with its message normalized, as the commit object serialization does) with
the default signatures and repoint `branch` at it. -/
def commitExplicit (r : RepoState) (branch msg : String) (parents : List Nat)
    (tree : Option String) (ts : Nat) : RepoState × Nat :=
  let oid := r.nextOid
  let c : Commit := ⟨parents, tree, normalizeMessage msg, some (mkSig ts), some (mkSig ts)⟩
  ({ r with commits := (oid, c) :: r.commits,
            nextOid := oid + 1,
            branches := setKey branch oid r.branches }, oid)

/-- `git.commit` without `parent`/`tree`: the parent defaults to the ref's
current head (no parent on an unborn ref) and the tree is built from the
index. -/
def commitIndex (r : RepoState) (branch msg : String) (ts : Nat) : RepoState × Nat :=
  let parents := match resolveRef r branch with
    | some h => [h]
    | none => []
  commitExplicit r branch msg parents r.indexFile ts

/-- `git.commit` with `amend: true`: replace the commit at the ref's head by
a fresh one with the same parents, the tree from the index and the given
message; fails when the ref or its head commit is missing. -/
def commitAmend (r : RepoState) (branch msg : String) (ts : Nat) :
    Option (RepoState × Nat) :=
  match resolveRef r branch with
  | none => none
  | some h =>
    match readCommit r h with
    | none => none
    | some c => some (commitExplicit r branch msg c.parents r.indexFile ts)

/-- `git.checkout`: select the branch and materialize its head tree into the
working copy and index (left untouched when the head cannot be read). -/
def checkoutBranch (r : RepoState) (branch : String) : RepoState :=
  match resolveRef r branch with
  | none => { r with headBranch := branch }
  | some h =>
    match readCommit r h with
    | none => { r with headBranch := branch }
    | some c => { r with headBranch := branch, workFile := c.tree, indexFile := c.tree }

/-- `git.branch` without checkout, on a name known to be absent. -/
def createBranchAt (r : RepoState) (name : String) (oid : Nat) : RepoState :=
  { r with branches := setKey name oid r.branches }

/-- `git.deleteBranch`. -/
def deleteBranchNamed (r : RepoState) (name : String) : RepoState :=
  { r with branches := removeKey name r.branches }

/-- `fs.promises.writeFile(dir + CONTENT_FILE, content)`. -/
def writeWorkFile (r : RepoState) (content : String) : RepoState :=
  { r with workFile := some content }

/-- `git.add({ filepath: CONTENT_FILE })`: stage the working copy. -/
def stageWorkFile (r : RepoState) : RepoState :=
  { r with indexFile := r.workFile }

/-- First-parent chain from an oid, newest first, with explicit fuel (real
git terminates because the commit graph is acyclic; every well-formed state
has parent oids strictly below their child, so `nextOid + 1` fuel is always
enough). -/
def chainF (r : RepoState) : Nat → Option Nat → List (Nat × Commit)
  | _, none => []
  | 0, some _ => []
  | fuel + 1, some oid =>
    match readCommit r oid with
    | none => []
    | some c => (oid, c) :: chainF r fuel c.parents.head?

/-- `git.log`: the commit chain from the branch head, newest first; `none`
models the throw on a missing ref. -/
def gitLog (r : RepoState) (branch : String) : Option (List (Nat × Commit)) :=
  match resolveRef r branch with
  | none => none
  | some h => some (chainF r (r.nextOid + 1) (some h))

/-! ## `DraftManager` -/

/-- Per-document runtime session state of a `DraftManager` instance. -/
structure Session where
  draftReady : Bool
  currentThread : String
deriving Repr, DecidableEq

/-- A fresh instance: `#draftReady = false`, `#currentThread = "main"`. -/
def Session.fresh : Session := ⟨false, "main"⟩

/-- A `DraftManager` together with its repository. -/
structure DM where
  repo : RepoState
  session : Session
deriving Repr, DecidableEq

/-- The errors the engine surfaces.  `DraftConflictError` carries exactly
what the class stores: its message string.  The thread errors carry the
offending name (interpolated into their messages in the source).  A
`substrate` error stands for an `isomorphic-git` exception propagating
unchanged. -/
inductive DMError where
  | draftConflict (message : String)
  | threadExists (name : String)
  | threadNotFound (name : String)
  | protectedThread (name : String)
  | substrate (what : String)
deriving Repr, DecidableEq

/-- The `DraftConflictError` default message. -/
def conflictDefaultMessage : String :=
  "Draft is out of date: main has new commits. Pull or merge before finalizing."

/-- First phase of `#doEnsureDraftReady`: ensure `main` has at least one
commit — when `refs/heads/main` does not resolve, write the empty tracked
file, stage it and create the `Initial commit` on `main` (the source's
double `resolveRef` retry is a pure repeat of the same read and is folded
into one).  Returns the repository together with `main`'s head. -/
def ensureMainStep (r0 : RepoState) (ts : Nat) : RepoState × Nat :=
  match resolveRef r0 "main" with
  | some m => (r0, m)
  | none => commitIndex (stageWorkFile (writeWorkFile r0 "")) "main" "Initial commit" ts

/-- Second phase of `#doEnsureDraftReady`, after `main`'s head `mainOid` is
known: when the `draft` branch is absent, create it at `mainOid` with
checkout and commit the `"draft"` sentinel commit one step ahead (parent
`mainOid`, tree `main`'s tree); when it exists, check it out and, if its
recorded first parent differs from `mainOid`, reset the `draft` ref to
`mainOid`, check out again and commit a fresh one-ahead sentinel commit.
On success the session becomes ready. -/
def draftPhase (r1 : RepoState) (mainOid : Nat) (sess : Session) (ts : Nat) :
    Except DMError Unit × DM :=
  if hasBranch r1 "draft" = false then
    let r2 := checkoutBranch (createBranchAt r1 "draft" mainOid) "draft"
    match readCommit r2 mainOid with
    | none => (.error (.substrate "readCommit main"), ⟨r2, sess⟩)
    | some mc =>
      let r3 := (commitExplicit r2 "draft" "draft" [mainOid] mc.tree ts).1
      (.ok (), ⟨r3, { sess with draftReady := true }⟩)
  else
    let r2 := checkoutBranch r1 "draft"
    match resolveRef r2 "draft" with
    | none => (.error (.substrate "resolveRef draft"), ⟨r2, sess⟩)
    | some draftOid =>
      match readCommit r2 draftOid with
      | none => (.error (.substrate "readCommit draft"), ⟨r2, sess⟩)
      | some dc =>
        if dc.parents.head? ≠ some mainOid then
          let r3 := checkoutBranch (writeRef r2 "draft" mainOid) "draft"
          match readCommit r3 mainOid with
          | none => (.error (.substrate "readCommit main"), ⟨r3, sess⟩)
          | some mc =>
            let r4 := (commitExplicit r3 "draft" "draft" [mainOid] mc.tree ts).1
            (.ok (), ⟨r4, { sess with draftReady := true }⟩)
        else
          (.ok (), ⟨r2, { sess with draftReady := true }⟩)

/-- `ensureDraftReady` / `#doEnsureDraftReady`, sequentially: a no-op once
ready, otherwise the two bootstrap phases.  The per-document init-promise
memoization only affects concurrent interleavings and is invisible to this
sequential model. -/
def ensureDraftReady (dm : DM) (ts : Nat) : Except DMError Unit × DM :=
  if dm.session.draftReady then (.ok (), dm)
  else
    let mainStep := ensureMainStep dm.repo ts
    draftPhase mainStep.1 mainStep.2 dm.session ts

/-- `updateDraft`: ensure readiness, serialize (via `stringifyDocument` when
metadata is supplied, verbatim otherwise), write and stage `content.md`, and
amend the commit at `draft`'s head. -/
def updateDraft (dm : DM) (content : String) (metadata : Option Metadata) (ts : Nat) :
    Except DMError Unit × DM :=
  match ensureDraftReady dm ts with
  | (.error e, dm1) => (.error e, dm1)
  | (.ok _, dm1) =>
    let contentToWrite := match metadata with
      | some m => stringifyDocument m content
      | none => content
    let r1 := stageWorkFile (writeWorkFile dm1.repo contentToWrite)
    match commitAmend r1 "draft" "draft" ts with
    | none => (.error (.substrate "commit amend"), { dm1 with repo := r1 })
    | some pr => (.ok (), { dm1 with repo := pr.1 })

/-- `finalizeCommit`: ensure readiness; read `main`'s head, `draft`'s head
and `draft`'s recorded first parent; throw `DraftConflictError` (before any
write) when the parent differs from `main`'s head; otherwise squash: one new
commit on `main` with parent `main`'s head, tree `draft`'s tree and the
caller's message, then force `draft` onto it and check `draft` out again. -/
def finalizeCommit (dm : DM) (message : String) (ts : Nat) : Except DMError Nat × DM :=
  match ensureDraftReady dm ts with
  | (.error e, dm1) => (.error e, dm1)
  | (.ok _, dm1) =>
    let r := dm1.repo
    match resolveRef r "main" with
    | none => (.error (.substrate "resolveRef main"), dm1)
    | some mainOid =>
      match resolveRef r "draft" with
      | none => (.error (.substrate "resolveRef draft"), dm1)
      | some draftOid =>
        match readCommit r draftOid with
        | none => (.error (.substrate "readCommit draft"), dm1)
        | some draftCommit =>
          if draftCommit.parents.head? ≠ some mainOid then
            (.error (.draftConflict conflictDefaultMessage), dm1)
          else
            let pr := commitExplicit r "main" message [mainOid] draftCommit.tree ts
            let r2 := checkoutBranch (writeRef pr.1 "draft" pr.2) "draft"
            (.ok pr.2, { dm1 with repo := r2 })

/-- Result of `loadDocument`. -/
structure DocView where
  content : String
  metadata : Metadata
deriving Repr, DecidableEq

/-- The defaults: empty content, empty metadata. -/
def emptyView : DocView := ⟨"", []⟩

/-- The view a ref head yields: defaults when the tracked file is missing or
empty, the parsed document otherwise (shared by the base and draft arms of
`loadDocument`). -/
def contentView (tree : Option String) : DocView :=
  match tree with
  | none => emptyView
  | some raw =>
    if raw = "" then emptyView
    else
      let parsed := parseDocument raw
      ⟨parsed.content, parsed.metadata⟩

/-- `commit.committer?.timestamp ?? 0`. -/
def committerTsOrZero (c : Commit) : Nat :=
  match c.committer with
  | some s => s.timestamp
  | none => 0

/-- The currently selected base ref, `this.#currentThread || "main"`. -/
def selectedBase (s : Session) : String :=
  if s.currentThread = "" then "main" else s.currentThread

/-- One try-block of `loadDocument`: resolve the ref and read its head
commit, producing the effective committer timestamp and the view of its
tree; `none` models the caught exception on a missing ref or commit. -/
def refPair (r : RepoState) (ref : String) : Option (Nat × DocView) :=
  match resolveRef r ref with
  | none => none
  | some oid =>
    match readCommit r oid with
    | none => none
    | some c => some (committerTsOrZero c, contentView c.tree)

/-- `loadDocument`: ensure readiness; read the selected base ref (the
current thread, `main` when unset) with defaults `(0, empty)` on any missing
state, and the `draft` ref the same way (but remembering whether it
resolved); return the draft view when the draft resolved and its committer
timestamp is at least the base's, the base view otherwise. -/
def loadDocument (dm : DM) (ts : Nat) : Except DMError DocView × DM :=
  match ensureDraftReady dm ts with
  | (.error e, dm1) => (.error e, dm1)
  | (.ok _, dm1) =>
    let r := dm1.repo
    let threadName := selectedBase dm1.session
    let basePair : Nat × DocView := (refPair r threadName).getD (0, emptyView)
    let draftPair : Option (Nat × DocView) := refPair r "draft"
    match draftPair with
    | some dp => if dp.1 ≥ basePair.1 then (.ok dp.2, dm1) else (.ok basePair.2, dm1)
    | none => (.ok basePair.2, dm1)

/-- One row of `getHistory`. -/
structure HistoryEntry where
  sha : Nat
  message : String
  timestamp : Nat
  author : String
deriving Repr, DecidableEq

/-- The mapping step of `getHistory`: committer timestamp, falling back to
the author timestamp, then to `0`, scaled to milliseconds; author name
defaulting to `"Unknown"`. -/
def historyEntryOf (oc : Nat × Commit) : HistoryEntry :=
  let c := oc.2
  let authorName := match c.author with
    | some s => s.name
    | none => "Unknown"
  let tsSeconds : Nat := match c.committer with
    | some s => s.timestamp
    | none =>
      match c.author with
      | some s => s.timestamp
      | none => 0
  ⟨oc.1, c.message, tsSeconds * 1000, authorName⟩

/-- `getHistory`: ensure readiness; log the selected base ref (empty on a
missing ref instead of throwing), drop every commit whose message is the
reserved sentinel `"draft"`, and map the rest to history entries. -/
def getHistory (dm : DM) (ts : Nat) : Except DMError (List HistoryEntry) × DM :=
  match ensureDraftReady dm ts with
  | (.error e, dm1) => (.error e, dm1)
  | (.ok _, dm1) =>
    let r := dm1.repo
    let threadName := selectedBase dm1.session
    match gitLog r threadName with
    | none => (.ok [], dm1)
    | some entries =>
      (.ok ((entries.filter fun oc => oc.2.message != "draft").map historyEntryOf), dm1)

/-- `createThread`: ensure readiness; branch at `draft`'s current head
without switching; `Thread already exists` when the name is taken. -/
def createThread (dm : DM) (name : String) (ts : Nat) : Except DMError Unit × DM :=
  match ensureDraftReady dm ts with
  | (.error e, dm1) => (.error e, dm1)
  | (.ok _, dm1) =>
    let r := dm1.repo
    match resolveRef r "draft" with
    | none => (.error (.substrate "resolveRef draft"), dm1)
    | some currentOid =>
      if hasBranch r name then (.error (.threadExists name), dm1)
      else (.ok (), { dm1 with repo := createBranchAt r name currentOid })

/-- `switchThread`: ensure readiness; `Thread not found` when the branch is
unknown, otherwise force `draft` onto the thread's head, check `draft` out
and record the selection. -/
def switchThread (dm : DM) (name : String) (ts : Nat) : Except DMError Unit × DM :=
  match ensureDraftReady dm ts with
  | (.error e, dm1) => (.error e, dm1)
  | (.ok _, dm1) =>
    let r := dm1.repo
    if hasBranch r name = false then (.error (.threadNotFound name), dm1)
    else
      match resolveRef r name with
      | none => (.error (.substrate "resolveRef thread"), dm1)
      | some threadOid =>
        let r1 := checkoutBranch (writeRef r "draft" threadOid) "draft"
        (.ok (), { repo := r1, session := { dm1.session with currentThread := name } })

/-- `getThreads` / `listThreads`: all branch names. -/
def listThreads (dm : DM) (ts : Nat) : Except DMError (List String) × DM :=
  match ensureDraftReady dm ts with
  | (.error e, dm1) => (.error e, dm1)
  | (.ok _, dm1) => (.ok (dm1.repo.branches.map Prod.fst), dm1)

/-- `deleteThread`: the protected-name check runs before anything else (in
particular before `ensureDraftReady`, so an uninitialized repository is left
completely untouched); then ensure readiness, tolerate a missing branch,
delete the branch, and when it was the active selection fall back to `main`
and best-effort repoint `draft` to `main`'s head. -/
def deleteThread (dm : DM) (name : String) (ts : Nat) : Except DMError Unit × DM :=
  if name = "main" ∨ name = "draft" then (.error (.protectedThread name), dm)
  else
    match ensureDraftReady dm ts with
    | (.error e, dm1) => (.error e, dm1)
    | (.ok _, dm1) =>
      let r := dm1.repo
      if hasBranch r name = false then (.ok (), dm1)
      else
        let r1 := deleteBranchNamed r name
        if dm1.session.currentThread = name then
          match resolveRef r1 "main" with
          | none =>
            (.ok (), { repo := r1, session := { dm1.session with currentThread := "main" } })
          | some mainOid =>
            (.ok (), { repo := writeRef r1 "draft" mainOid,
                       session := { dm1.session with currentThread := "main" } })
        else (.ok (), { dm1 with repo := r1 })

/-! ## Well-formed repositories and chain lemmas

Every repository the engine ever builds satisfies `wfRepo`: stored oids are
below the fresh counter, parents point at strictly older stored commits and
branch heads are stored.  This is what makes `git.log` well defined (the
graph is acyclic) and what the counting arguments below rest on. -/

/-- Executable well-formedness of a repository state. -/
def wfRepo (r : RepoState) : Bool :=
  (r.commits.all fun oc =>
    decide (oc.1 < r.nextOid) &&
      oc.2.parents.all fun p => decide (p < oc.1) && (readCommit r p).isSome) &&
  (r.branches.all fun b => (readCommit r b.2).isSome)

theorem lookupKey_mem {α β : Type} [DecidableEq α] (key : α) (v : β) :
    ∀ l : List (α × β), lookupKey key l = some v → (key, v) ∈ l := by
  intro l
  induction l with
  | nil => intro h; simp [lookupKey] at h
  | cons p rest ih =>
      obtain ⟨k, w⟩ := p
      intro h
      by_cases hk : k = key
      · subst hk
        simp [lookupKey] at h
        subst h
        exact List.mem_cons_self _ _
      · simp [lookupKey, hk] at h
        exact List.mem_cons_of_mem _ (ih h)

theorem wfRepo_oid_lt {r : RepoState} (hwf : wfRepo r = true) {o : Nat} {c : Commit}
    (hmem : (o, c) ∈ r.commits) : o < r.nextOid := by
  simp only [wfRepo, Bool.and_eq_true, List.all_eq_true] at hwf
  have := hwf.1 (o, c) hmem
  simp only [Bool.and_eq_true, decide_eq_true_eq] at this
  exact this.1

theorem wfRepo_parent {r : RepoState} (hwf : wfRepo r = true) {o : Nat} {c : Commit}
    (hmem : (o, c) ∈ r.commits) {p : Nat} (hp : p ∈ c.parents) :
    p < o ∧ (readCommit r p).isSome := by
  simp only [wfRepo, Bool.and_eq_true, List.all_eq_true] at hwf
  have := hwf.1 (o, c) hmem
  simp only [Bool.and_eq_true, decide_eq_true_eq] at this
  have h2 := this.2 p hp
  exact ⟨h2.1, h2.2⟩

theorem wfRepo_branch {r : RepoState} (hwf : wfRepo r = true) {b : String} {o : Nat}
    (hmem : (b, o) ∈ r.branches) : (readCommit r o).isSome := by
  simp only [wfRepo, Bool.and_eq_true, List.all_eq_true] at hwf
  exact hwf.2 (b, o) hmem

theorem head?_mem {α : Type} {l : List α} {x : α} (h : l.head? = some x) : x ∈ l := by
  cases l with
  | nil => simp at h
  | cons a t =>
      simp only [List.head?_cons, Option.some.injEq] at h
      subst h
      exact List.mem_cons_self _ _

/-- The chain walk does not depend on its fuel once the fuel exceeds the
starting oid: parents strictly decrease in a well-formed store. -/
theorem chainF_fuel {r : RepoState} (hwf : wfRepo r = true) :
    ∀ x f g, x < f → x < g → chainF r f (some x) = chainF r g (some x) := by
  intro x
  induction x using Nat.strong_induction_on with
  | _ x ih =>
    intro f g hf hg
    obtain ⟨f, rfl⟩ : ∃ k, f = k + 1 := ⟨f - 1, by omega⟩
    obtain ⟨g, rfl⟩ : ∃ k, g = k + 1 := ⟨g - 1, by omega⟩
    simp only [chainF]
    cases hc : readCommit r x with
    | none => rfl
    | some c =>
        have hmem := lookupKey_mem _ _ _ hc
        cases hp : c.parents.head? with
        | none => simp [hp, chainF]
        | some p =>
            have hplt : p < x := (wfRepo_parent hwf hmem (head?_mem hp)).1
            have := ih p hplt f g (by omega) (by omega)
            simp [hp, this]

/-- The chain from an oid already stored is unaffected by a state change
that leaves every stored commit readable unchanged. -/
theorem chainF_agree {r r2 : RepoState} (hwf : wfRepo r = true)
    (hag : ∀ o, o < r.nextOid → readCommit r2 o = readCommit r o) :
    ∀ f x, x < r.nextOid → chainF r2 f (some x) = chainF r f (some x) := by
  intro f
  induction f with
  | zero => intro x _; rfl
  | succ f ih =>
      intro x hx
      simp only [chainF, hag x hx]
      cases hc : readCommit r x with
      | none => rfl
      | some c =>
          have hmem := lookupKey_mem _ _ _ hc
          cases hp : c.parents.head? with
          | none => simp [hp, chainF]
          | some p =>
              have hplt : p < x := (wfRepo_parent hwf hmem (head?_mem hp)).1
              simp [hp, ih p (by omega)]

theorem mem_setKey {α β : Type} [DecidableEq α] (key : α) (val : β) :
    ∀ l : List (α × β), ∀ q ∈ setKey key val l, q = (key, val) ∨ q ∈ l := by
  intro l
  induction l with
  | nil =>
      intro q hq
      simp only [setKey, List.mem_singleton] at hq
      exact Or.inl hq
  | cons p rest ih =>
      obtain ⟨k, v⟩ := p
      intro q hq
      by_cases hk : k = key
      · subst hk
        rw [setKey, if_pos rfl] at hq
        rcases List.mem_cons.mp hq with h1 | h1
        · exact Or.inl h1
        · exact Or.inr (List.mem_cons_of_mem _ h1)
      · rw [setKey, if_neg hk] at hq
        rcases List.mem_cons.mp hq with h1 | h1
        · exact Or.inr (h1 ▸ List.mem_cons_self _ _)
        · rcases ih q h1 with h2 | h2
          · exact Or.inl h2
          · exact Or.inr (List.mem_cons_of_mem _ h2)

/-! ## Concrete scenario states

The end-to-end states the witnesses and counterexamples evaluate: a fresh
manager, the bootstrapped state, and the bootstrapped state after `main`
advanced out-of-band (the spec's "simulating another writer"). -/

deriving instance DecidableEq for Except

/-- A fresh manager over an empty repository. -/
def dmStart : DM := ⟨emptyRepo, Session.fresh⟩

/-- The state after bootstrap at clock 0: `main ↦ 0` (`Initial commit`),
`draft ↦ 1` (sentinel commit with parent `0`), session ready on `main`. -/
def dmBoot : DM := (ensureDraftReady dmStart 0).2

/-- `dmBoot` with one commit added to `main` out-of-band: `main ↦ 2`,
`draft` still `↦ 1` with recorded parent `0`. -/
def dmDrift : DM :=
  { dmBoot with repo := (commitExplicit dmBoot.repo "main" "out-of-band" [0] (some "z") 1).1 }

/-- `dmBoot` with two commits added to `main` out-of-band: `main ↦ 3`. -/
def dmDrift2 : DM :=
  { dmBoot with
    repo := (commitExplicit
      (commitExplicit dmBoot.repo "main" "out-of-band" [0] (some "z") 1).1
      "main" "more" [2] (some "w") 2).1 }

/-! ## Preservation helpers -/

theorem checkoutBranch_commits (r : RepoState) (b : String) :
    (checkoutBranch r b).commits = r.commits := by
  rcases hres : resolveRef r b with _ | h
  · simp [checkoutBranch, hres]
  · rcases hrc : readCommit r h with _ | c <;> simp [checkoutBranch, hres, hrc]

theorem checkoutBranch_branches (r : RepoState) (b : String) :
    (checkoutBranch r b).branches = r.branches := by
  rcases hres : resolveRef r b with _ | h
  · simp [checkoutBranch, hres]
  · rcases hrc : readCommit r h with _ | c <;> simp [checkoutBranch, hres, hrc]

theorem checkoutBranch_nextOid (r : RepoState) (b : String) :
    (checkoutBranch r b).nextOid = r.nextOid := by
  rcases hres : resolveRef r b with _ | h
  · simp [checkoutBranch, hres]
  · rcases hrc : readCommit r h with _ | c <;> simp [checkoutBranch, hres, hrc]

/-! ## C1 — finalize on a stale draft -/

/-- C1 (amended): when the session is ready and the draft commit's recorded
first parent differs from the commit `main` currently resolves to,
`finalizeCommit` fails with the `DraftConflictError` carrying its fixed
default message, and performs no write at all: the returned state — refs,
commit store, working copy, session — is the input state. -/
theorem finalizeCommit_conflict_no_write (dm : DM) (msg : String) (ts m d : Nat)
    (dc : Commit)
    (hready : dm.session.draftReady = true)
    (hm : resolveRef dm.repo "main" = some m)
    (hd : resolveRef dm.repo "draft" = some d)
    (hdc : readCommit dm.repo d = some dc)
    (hconf : dc.parents.head? ≠ some m) :
    finalizeCommit dm msg ts = (.error (.draftConflict conflictDefaultMessage), dm) := by
  simp [finalizeCommit, ensureDraftReady, hready, hm, hd, hdc, hconf]

/-- C1 (counterexample): the `Conflict` condition does not carry `main`'s
head (nor the draft's head or recorded parent): two states whose `main`
heads differ produce the very same error value, which is the fixed default
message. -/
theorem finalizeCommit_conflict_value_constant :
    (finalizeCommit dmDrift "msg" 9).1 = (finalizeCommit dmDrift2 "msg" 9).1 ∧
    resolveRef dmDrift.repo "main" = some 2 ∧
    resolveRef dmDrift2.repo "main" = some 3 ∧
    (finalizeCommit dmDrift "msg" 9).1 =
      .error (.draftConflict conflictDefaultMessage) := by
  decide

/-- C1 witness: the amended theorem applied to the drifted bootstrap state. -/
theorem finalizeCommit_conflict_no_write_app :
    finalizeCommit dmDrift "next" 7 = (.error (.draftConflict conflictDefaultMessage), dmDrift) :=
  finalizeCommit_conflict_no_write dmDrift "next" 7 2 1
    ⟨[0], some "", "draft\n", some (mkSig 0), some (mkSig 0)⟩
    (by decide) (by decide) (by decide) (by decide) (by decide)

/-! ## C2 — finalize on an aligned draft -/

/-- C2: when the session is ready and the draft commit's recorded first
parent equals `main`'s current head, `finalizeCommit` creates exactly one
new commit (the fresh oid), whose parent is `main`'s previous head, whose
tree is the draft commit's tree at call time and whose message is the
caller's; it repoints both `main` and the `draft` ref to it, touches no
other commit and no other branch, leaves the session unchanged, and returns
the new commit's identifier. -/
theorem finalizeCommit_success (dm : DM) (msg : String) (ts m d : Nat) (dc : Commit)
    (hready : dm.session.draftReady = true)
    (hm : resolveRef dm.repo "main" = some m)
    (hd : resolveRef dm.repo "draft" = some d)
    (hdc : readCommit dm.repo d = some dc)
    (hpar : dc.parents.head? = some m) :
    (finalizeCommit dm msg ts).1 = .ok dm.repo.nextOid ∧
    readCommit (finalizeCommit dm msg ts).2.repo dm.repo.nextOid =
      some ⟨[m], dc.tree, normalizeMessage msg, some (mkSig ts), some (mkSig ts)⟩ ∧
    resolveRef (finalizeCommit dm msg ts).2.repo "main" = some dm.repo.nextOid ∧
    resolveRef (finalizeCommit dm msg ts).2.repo "draft" = some dm.repo.nextOid ∧
    (finalizeCommit dm msg ts).2.repo.commits.length = dm.repo.commits.length + 1 ∧
    (∀ o, o ≠ dm.repo.nextOid →
      readCommit (finalizeCommit dm msg ts).2.repo o = readCommit dm.repo o) ∧
    (∀ b, b ≠ "main" → b ≠ "draft" →
      resolveRef (finalizeCommit dm msg ts).2.repo b = resolveRef dm.repo b) ∧
    (finalizeCommit dm msg ts).2.session = dm.session := by
  have hrun :
      (finalizeCommit dm msg ts).2.repo.commits =
        (dm.repo.nextOid,
          (⟨[m], dc.tree, normalizeMessage msg, some (mkSig ts), some (mkSig ts)⟩ : Commit))
          :: dm.repo.commits ∧
      (finalizeCommit dm msg ts).2.repo.branches =
        setKey "draft" dm.repo.nextOid (setKey "main" dm.repo.nextOid dm.repo.branches) ∧
      (finalizeCommit dm msg ts).1 = .ok dm.repo.nextOid ∧
      (finalizeCommit dm msg ts).2.session = dm.session := by
    simp [finalizeCommit, ensureDraftReady, hready, hm, hd, hdc, hpar, commitExplicit,
      writeRef, checkoutBranch_commits, checkoutBranch_branches]
  obtain ⟨hcm, hbr, hrv, hsess⟩ := hrun
  refine ⟨hrv, ?_, ?_, ?_, ?_, ?_, ?_, hsess⟩
  · simp [readCommit, hcm]
  · rw [resolveRef, hbr, lookupKey_setKey_other "draft" "main" _ (by decide),
      lookupKey_setKey_self]
  · rw [resolveRef, hbr, lookupKey_setKey_self]
  · simp [hcm]
  · intro o ho
    simp [readCommit, hcm, Ne.symm ho]
  · intro b hb1 hb2
    rw [resolveRef, hbr, lookupKey_setKey_other "draft" b _ (fun h => hb2 h.symm),
      lookupKey_setKey_other "main" b _ (fun h => hb1 h.symm)]
    rfl

/-- C2 witness: finalizing the fresh bootstrap squashes into commit 2 and
repoints both refs there. -/
theorem finalizeCommit_success_app :
    (finalizeCommit dmBoot "first" 2).1 = .ok 2 ∧
    resolveRef (finalizeCommit dmBoot "first" 2).2.repo "main" = some 2 ∧
    resolveRef (finalizeCommit dmBoot "first" 2).2.repo "draft" = some 2 := by
  have h := finalizeCommit_success dmBoot "first" 2 0 1
    ⟨[0], some "", "draft\n", some (mkSig 0), some (mkSig 0)⟩
    (by decide) (by decide) (by decide) (by decide) (by decide)
  exact ⟨h.1, h.2.2.1, h.2.2.2.1⟩

/-! ## C6 — protected and missing thread deletion -/

/-- C6: `deleteThread` on `main` or on the reserved draft name fails with
the `ProtectedThread` condition and returns the input state untouched — the
guard runs before the readiness gate, so even a completely uninitialized
repository sees no substrate effect; and on a ready session, a
non-protected name that names no existing branch is a no-op that returns
without error. -/
theorem deleteThread_protected_and_missing :
    (∀ (dm : DM) (name : String) (ts : Nat), name = "main" ∨ name = "draft" →
      deleteThread dm name ts = (.error (.protectedThread name), dm)) ∧
    (∀ (dm : DM) (name : String) (ts : Nat), dm.session.draftReady = true →
      ¬(name = "main" ∨ name = "draft") → hasBranch dm.repo name = false →
      deleteThread dm name ts = (.ok (), dm)) := by
  constructor
  · intro dm name ts h
    simp [deleteThread, h]
  · intro dm name ts hready hname hmiss
    simp [deleteThread, hname, ensureDraftReady, hready, hmiss]

/-- C6 witness: both protected names fail on the untouched fresh state, and
deleting an unknown thread on the ready state is a no-op. -/
theorem deleteThread_protected_and_missing_app :
    deleteThread dmStart "main" 0 = (.error (.protectedThread "main"), dmStart) ∧
    deleteThread dmStart "draft" 0 = (.error (.protectedThread "draft"), dmStart) ∧
    deleteThread dmBoot "no-such-thread" 9 = (.ok (), dmBoot) :=
  ⟨deleteThread_protected_and_missing.1 dmStart "main" 0 (Or.inl rfl),
   deleteThread_protected_and_missing.1 dmStart "draft" 0 (Or.inr rfl),
   deleteThread_protected_and_missing.2 dmBoot "no-such-thread" 9
     (by decide) (by decide) (by decide)⟩

/-! ## C3 — the one-ahead alignment invariant -/

theorem resolveRef_checkoutBranch (r : RepoState) (b b2 : String) :
    resolveRef (checkoutBranch r b) b2 = resolveRef r b2 := by
  unfold resolveRef
  rw [checkoutBranch_branches]

theorem readCommit_checkoutBranch (r : RepoState) (b : String) (o : Nat) :
    readCommit (checkoutBranch r b) o = readCommit r o := by
  unfold readCommit
  rw [checkoutBranch_commits]

theorem ensureMainStep_resolves (r0 : RepoState) (ts : Nat) :
    resolveRef (ensureMainStep r0 ts).1 "main" = some (ensureMainStep r0 ts).2 := by
  unfold ensureMainStep
  rcases h : resolveRef r0 "main" with _ | m
  · simp [commitIndex, commitExplicit, resolveRef, stageWorkFile, writeWorkFile,
      lookupKey_setKey_self, h]
  · simpa using h

/-- The draft phase of the bootstrap leaves `draft`'s recorded first parent
equal to `main`'s head and the selection untouched (with readiness set). -/
theorem draftPhase_aligns (r1 : RepoState) (m : Nat) (sess : Session) (ts : Nat)
    (dm2 : DM)
    (hm : resolveRef r1 "main" = some m)
    (hok : draftPhase r1 m sess ts = (.ok (), dm2)) :
    dm2.session = { sess with draftReady := true } ∧
    ∃ d dc, resolveRef dm2.repo "draft" = some d ∧ readCommit dm2.repo d = some dc ∧
      dc.parents.head? = some m ∧ resolveRef dm2.repo "main" = some m := by
  unfold draftPhase at hok
  by_cases hdb : hasBranch r1 "draft" = false
  · rw [if_pos hdb] at hok
    simp only [] at hok
    rcases hmc : readCommit (checkoutBranch (createBranchAt r1 "draft" m) "draft") m
      with _ | mc
    · rw [hmc] at hok; exact absurd (congrArg Prod.fst hok) (by simp)
    · rw [hmc] at hok
      have hdm2 := congrArg Prod.snd hok
      simp only at hdm2
      subst hdm2
      refine ⟨rfl, (checkoutBranch (createBranchAt r1 "draft" m) "draft").nextOid,
        ⟨[m], mc.tree, normalizeMessage "draft", some (mkSig ts), some (mkSig ts)⟩,
        ?_, ?_, rfl, ?_⟩
      · simp [commitExplicit, resolveRef, lookupKey_setKey_self]
      · simp [commitExplicit, readCommit]
      · simp only [commitExplicit, resolveRef]
        rw [lookupKey_setKey_other "draft" "main" _ (by decide), checkoutBranch_branches]
        simpa [resolveRef, createBranchAt,
          lookupKey_setKey_other "draft" "main" _ (by decide)] using hm
  · rw [if_neg hdb] at hok
    simp only [] at hok
    have hsome : (lookupKey "draft" r1.branches).isSome = true := by
      revert hdb
      unfold hasBranch
      cases lookupKey "draft" r1.branches <;> simp
    obtain ⟨d0, hd0⟩ := Option.isSome_iff_exists.mp hsome
    have hd0r : resolveRef (checkoutBranch r1 "draft") "draft" = some d0 := by
      rw [resolveRef_checkoutBranch]; exact hd0
    rw [hd0r] at hok
    simp only [] at hok
    rcases hdc0 : readCommit (checkoutBranch r1 "draft") d0 with _ | dc0
    · rw [hdc0] at hok; exact absurd (congrArg Prod.fst hok) (by simp)
    · rw [hdc0] at hok
      simp only [] at hok
      by_cases halg : dc0.parents.head? = some m
      · rw [if_neg (by simpa using halg)] at hok
        have hdm2 := congrArg Prod.snd hok
        simp only at hdm2
        subst hdm2
        refine ⟨rfl, d0, dc0, hd0r, hdc0, halg, ?_⟩
        rw [resolveRef_checkoutBranch]; exact hm
      · rw [if_pos (by simpa using halg)] at hok
        rcases hmc : readCommit
            (checkoutBranch (writeRef (checkoutBranch r1 "draft") "draft" m) "draft") m
          with _ | mc
        · rw [hmc] at hok; exact absurd (congrArg Prod.fst hok) (by simp)
        · rw [hmc] at hok
          have hdm2 := congrArg Prod.snd hok
          simp only at hdm2
          subst hdm2
          refine ⟨rfl,
            (checkoutBranch (writeRef (checkoutBranch r1 "draft") "draft" m) "draft").nextOid,
            ⟨[m], mc.tree, normalizeMessage "draft", some (mkSig ts), some (mkSig ts)⟩,
            ?_, ?_, rfl, ?_⟩
          · simp [commitExplicit, resolveRef, lookupKey_setKey_self]
          · simp [commitExplicit, readCommit]
          · simp only [commitExplicit, resolveRef]
            rw [lookupKey_setKey_other "draft" "main" _ (by decide),
              checkoutBranch_branches]
            show lookupKey "main"
              (writeRef (checkoutBranch r1 "draft") "draft" m).branches = some m
            unfold writeRef
            rw [lookupKey_setKey_other "draft" "main" _ (by decide),
              checkoutBranch_branches]
            exact hm

/-- `draft` is aligned: its recorded first parent is the head of the
currently selected base ref. -/
def draftAligned (dm : DM) : Prop :=
  ∃ d dc h, resolveRef dm.repo "draft" = some d ∧ readCommit dm.repo d = some dc ∧
    resolveRef dm.repo (selectedBase dm.session) = some h ∧ dc.parents.head? = some h

/-- C3 (amended): the alignment invariant holds right after the bootstrap
runs (from a fresh session, whose selection is `main`) and is preserved by a
successful `createThread`; but a successful `switchThread` does not
re-establish it — instead it leaves the `draft` ref pointing *at* the
selected thread's head (zero steps ahead, not one), recording the selection. -/
theorem alignment_after_bootstrap_create_switch :
    (∀ (dm : DM) (ts : Nat) (dm2 : DM), dm.session.draftReady = false →
      dm.session.currentThread = "main" → ensureDraftReady dm ts = (.ok (), dm2) →
      draftAligned dm2) ∧
    (∀ (dm : DM) (name : String) (ts : Nat) (dm2 : DM),
      dm.session.draftReady = true → draftAligned dm →
      createThread dm name ts = (.ok (), dm2) → draftAligned dm2) ∧
    (∀ (dm : DM) (name : String) (ts : Nat) (dm2 : DM),
      dm.session.draftReady = true → switchThread dm name ts = (.ok (), dm2) →
      ∃ tOid, resolveRef dm.repo name = some tOid ∧
        resolveRef dm2.repo "draft" = some tOid ∧
        dm2.session.currentThread = name ∧
        (name ≠ "draft" → resolveRef dm2.repo name = some tOid)) := by
  refine ⟨?_, ?_, ?_⟩
  · intro dm ts dm2 hnr hmain hok
    unfold ensureDraftReady at hok
    rw [hnr] at hok
    simp only [Bool.false_eq_true, if_false] at hok
    obtain ⟨hsess, d, dc, hd, hdc, hpar, hm⟩ :=
      draftPhase_aligns _ _ _ _ _ (ensureMainStep_resolves dm.repo ts) hok
    refine ⟨d, dc, _, hd, hdc, ?_, hpar⟩
    have : selectedBase dm2.session = "main" := by
      rw [hsess]; unfold selectedBase; simp [hmain]
    rw [this]; exact hm
  · intro dm name ts dm2 hready hal hok
    obtain ⟨d, dc, h, hd, hdc, hbase, hpar⟩ := hal
    unfold createThread at hok
    rw [show ensureDraftReady dm ts = (.ok (), dm) by
        simp [ensureDraftReady, hready]] at hok
    simp only at hok
    rw [hd] at hok
    simp only [] at hok
    by_cases hb : hasBranch dm.repo name
    · rw [if_pos hb] at hok; exact absurd (congrArg Prod.fst hok) (by simp)
    · rw [if_neg hb] at hok
      have hnone : lookupKey name dm.repo.branches = none := by
        revert hb
        unfold hasBranch
        cases lookupKey name dm.repo.branches <;> simp
      have hnd : name ≠ "draft" := by
        intro e; rw [e] at hnone
        rw [show resolveRef dm.repo "draft" = lookupKey "draft" dm.repo.branches from rfl,
          hnone] at hd
        exact absurd hd (by simp)
      have hnb : name ≠ selectedBase dm.session := by
        intro e; rw [e] at hnone
        rw [show resolveRef dm.repo (selectedBase dm.session)
            = lookupKey (selectedBase dm.session) dm.repo.branches from rfl,
          hnone] at hbase
        exact absurd hbase (by simp)
      have hdm2 := congrArg Prod.snd hok
      simp only at hdm2
      subst hdm2
      refine ⟨d, dc, h, ?_, hdc, ?_, hpar⟩
      · show lookupKey "draft" (setKey name d dm.repo.branches) = some d
        rw [lookupKey_setKey_other name "draft" _ hnd]
        exact hd
      · show lookupKey (selectedBase dm.session) (setKey name d dm.repo.branches) = some h
        rw [lookupKey_setKey_other name _ _ hnb]
        exact hbase
  · intro dm name ts dm2 hready hok
    unfold switchThread at hok
    rw [show ensureDraftReady dm ts = (.ok (), dm) by
        simp [ensureDraftReady, hready]] at hok
    simp only at hok
    by_cases hb : hasBranch dm.repo name = false
    · rw [if_pos hb] at hok; exact absurd (congrArg Prod.fst hok) (by simp)
    · rw [if_neg hb] at hok
      have hsome : (lookupKey name dm.repo.branches).isSome = true := by
        revert hb
        unfold hasBranch
        cases lookupKey name dm.repo.branches <;> simp
      obtain ⟨tOid, ht⟩ := Option.isSome_iff_exists.mp hsome
      rw [show resolveRef dm.repo name = lookupKey name dm.repo.branches from rfl, ht] at hok
      have hdm2 := congrArg Prod.snd hok
      simp only at hdm2
      subst hdm2
      refine ⟨tOid, ht, ?_, rfl, ?_⟩
      · rw [show resolveRef _ "draft" = lookupKey "draft"
            (checkoutBranch (writeRef dm.repo "draft" tOid) "draft").branches from rfl,
          checkoutBranch_branches]
        unfold writeRef
        exact lookupKey_setKey_self "draft" tOid dm.repo.branches
      · intro hnd
        rw [show resolveRef _ name = lookupKey name
            (checkoutBranch (writeRef dm.repo "draft" tOid) "draft").branches from rfl,
          checkoutBranch_branches]
        unfold writeRef
        rw [lookupKey_setKey_other "draft" name _ (fun e => hnd e.symm)]
        exact ht

/-- The bootstrap draft commit: parent `0` (the `Initial commit`), empty
tree, sentinel message in its normalized stored form. -/
def bootDraftCommit : Commit := ⟨[0], some "", "draft\n", some (mkSig 0), some (mkSig 0)⟩

/-- `dmBoot` after `createThread "t"` at clock 1: branch `t ↦ 1`. -/
def dmThread : DM := (createThread dmBoot "t" 1).2

/-- `dmThread` after `switchThread "t"` at clock 2: selection `t`,
`draft ↦ 1 = t`'s head. -/
def dmSwitched : DM := (switchThread dmThread "t" 2).2

/-- C3 (counterexample): after a successful `switchThread` the invariant
fails — `draft` resolves to the thread's own head (commit 1), whose
recorded first parent is commit 0, not the selected base head (commit 1). -/
theorem switchThread_breaks_alignment :
    (switchThread dmThread "t" 2).1 = .ok () ∧ ¬ draftAligned dmSwitched := by
  constructor
  · decide
  · rintro ⟨d, dc, h, h1, h2, h3, h4⟩
    have e1 : resolveRef dmSwitched.repo "draft" = some 1 := by decide
    have hd : (1 : Nat) = d := Option.some.inj (e1.symm.trans h1)
    subst hd
    have e2 : readCommit dmSwitched.repo 1 = some bootDraftCommit := by decide
    have hdc : bootDraftCommit = dc := Option.some.inj (e2.symm.trans h2)
    subst hdc
    have e3 : resolveRef dmSwitched.repo (selectedBase dmSwitched.session) = some 1 := by
      decide
    have hh : (1 : Nat) = h := Option.some.inj (e3.symm.trans h3)
    subst hh
    exact absurd (Option.some.inj h4) (by decide)

/-- C3 witness: the amended theorem instantiated on the concrete empty-repo
bootstrap, a `createThread "t"` on it, and the switch onto `t`. -/
theorem alignment_after_bootstrap_create_switch_app :
    draftAligned dmBoot ∧ draftAligned dmThread ∧
    resolveRef dmSwitched.repo "draft" = some 1 := by
  have h1 : draftAligned dmBoot :=
    alignment_after_bootstrap_create_switch.1 dmStart 0 dmBoot rfl rfl (by decide)
  have h2 : draftAligned dmThread :=
    alignment_after_bootstrap_create_switch.2.1 dmBoot "t" 1 dmThread (by decide) h1
      (by decide)
  have h3 := alignment_after_bootstrap_create_switch.2.2 dmThread "t" 2 dmSwitched
    (by decide) (by decide)
  obtain ⟨tOid, ht, hdraft, hsel, hname⟩ := h3
  have : tOid = 1 := by
    have e : resolveRef dmThread.repo "t" = some 1 := by decide
    exact Option.some.inj (ht.symm.trans e)
  subst this
  exact ⟨h1, h2, hdraft⟩

/-! ## C4 — autosave amends in place -/

/-- Number of commits reachable from the `draft` ref (first-parent chain;
`0` when the ref is missing). -/
def draftChainLen (dm : DM) : Nat :=
  ((gitLog dm.repo "draft").getD []).length

/-- The parent list recorded by the commit at `draft`'s head. -/
def draftParents (dm : DM) : Option (List Nat) :=
  (resolveRef dm.repo "draft").bind fun h => (readCommit dm.repo h).map Commit.parents

/-- A sequence of `updateDraft` calls: content, optional metadata, clock. -/
def runUpdates (dm : DM) : List (String × Option Metadata × Nat) → DM
  | [] => dm
  | step :: rest => runUpdates (updateDraft dm step.1 step.2.1 step.2.2).2 rest

/-- A fresh explicit commit preserves well-formedness when its parents are
stored with oids below the counter. -/
theorem wfRepo_commitExplicit (r : RepoState) (branch msg : String) (parents : List Nat)
    (tree : Option String) (ts : Nat)
    (hwf : wfRepo r = true)
    (hp : ∀ p ∈ parents, p < r.nextOid ∧ (readCommit r p).isSome) :
    wfRepo (commitExplicit r branch msg parents tree ts).1 = true := by
  have hread : ∀ o, o < r.nextOid →
      readCommit (commitExplicit r branch msg parents tree ts).1 o = readCommit r o := by
    intro o ho
    show lookupKey o ((r.nextOid, _) :: r.commits) = _
    rw [lookupKey_cons, if_neg (by omega)]
    rfl
  have hnew : readCommit (commitExplicit r branch msg parents tree ts).1 r.nextOid =
      some ⟨parents, tree, normalizeMessage msg, some (mkSig ts), some (mkSig ts)⟩ := by
    show lookupKey r.nextOid ((r.nextOid, _) :: r.commits) = _
    rw [lookupKey_cons, if_pos rfl]
  rw [wfRepo, Bool.and_eq_true, List.all_eq_true, List.all_eq_true]
  constructor
  · intro oc hoc
    rcases List.mem_cons.mp hoc with hh | hh
    · subst hh
      simp only [Bool.and_eq_true, decide_eq_true_eq, List.all_eq_true]
      refine ⟨by simp [commitExplicit], ?_⟩
      intro p hpmem
      obtain ⟨hlt, hsome⟩ := hp p hpmem
      refine ⟨by simpa [commitExplicit] using hlt, ?_⟩
      rw [hread p hlt]
      simpa using hsome
    · have h1 := wfRepo_oid_lt hwf hh
      simp only [Bool.and_eq_true, decide_eq_true_eq, List.all_eq_true]
      refine ⟨by simp [commitExplicit]; omega, ?_⟩
      intro p hpmem
      obtain ⟨hlt, hsome⟩ := wfRepo_parent hwf hh hpmem
      refine ⟨hlt, ?_⟩
      rw [hread p (by omega)]
      simpa using hsome
  · intro b hb
    rcases mem_setKey _ _ _ _ hb with hh | hh
    · subst hh
      simp only []
      rw [hnew]
      rfl
    · have hsome := wfRepo_branch hwf hh
      obtain ⟨c, hc⟩ := Option.isSome_iff_exists.mp hsome
      have hlt := wfRepo_oid_lt hwf (lookupKey_mem _ _ _ hc)
      rw [hread b.2 hlt]
      exact hsome

/-- One `updateDraft` on a ready, well-formed, draft-resolving state:
succeeds, keeps the session, preserves well-formedness, replaces the commit
at `draft`'s head by a fresh one with the *same parents* and the staged
tree, and leaves the length of `draft`'s history unchanged. -/
theorem updateDraft_step (dm : DM) (content : String) (md : Option Metadata) (ts : Nat)
    (d : Nat) (dc : Commit)
    (hready : dm.session.draftReady = true)
    (hwf : wfRepo dm.repo = true)
    (hd : resolveRef dm.repo "draft" = some d)
    (hdc : readCommit dm.repo d = some dc) :
    (updateDraft dm content md ts).1 = .ok () ∧
    (updateDraft dm content md ts).2.session = dm.session ∧
    wfRepo (updateDraft dm content md ts).2.repo = true ∧
    resolveRef (updateDraft dm content md ts).2.repo "draft" = some dm.repo.nextOid ∧
    (∃ tr, readCommit (updateDraft dm content md ts).2.repo dm.repo.nextOid =
      some ⟨dc.parents, tr, normalizeMessage "draft", some (mkSig ts), some (mkSig ts)⟩) ∧
    draftChainLen (updateDraft dm content md ts).2 = draftChainLen dm ∧
    draftParents (updateDraft dm content md ts).2 = some dc.parents := by
  have hdmem : (d, dc) ∈ dm.repo.commits := lookupKey_mem _ _ _ hdc
  have hdn : d < dm.repo.nextOid := wfRepo_oid_lt hwf hdmem
  set w : String := (match md with
    | some m => stringifyDocument m content
    | none => content) with hw
  set r1 : RepoState := stageWorkFile (writeWorkFile dm.repo w) with hr1
  have h1 : resolveRef r1 "draft" = some d := hd
  have h2 : readCommit r1 d = some dc := hdc
  have hrun : updateDraft dm content md ts =
      (.ok (), ⟨(commitExplicit r1 "draft" "draft" dc.parents r1.indexFile ts).1,
        dm.session⟩) := by
    unfold updateDraft
    rw [show ensureDraftReady dm ts = (.ok (), dm) by simp [ensureDraftReady, hready]]
    simp only [commitAmend, hw, hr1, h1, h2]
  rw [hrun]
  set r2 : RepoState := (commitExplicit r1 "draft" "draft" dc.parents r1.indexFile ts).1
    with hr2
  have hr1c : r1.commits = dm.repo.commits := rfl
  have hr1b : r1.branches = dm.repo.branches := rfl
  have hr1n : r1.nextOid = dm.repo.nextOid := rfl
  have hwf1 : wfRepo r1 = true := by
    rw [show wfRepo r1 = wfRepo dm.repo from rfl]
    exact hwf
  have hread2 : ∀ o, o < dm.repo.nextOid → readCommit r2 o = readCommit dm.repo o := by
    intro o ho
    show lookupKey o ((dm.repo.nextOid, _) :: dm.repo.commits) = _
    rw [lookupKey_cons, if_neg (by omega)]
    rfl
  have hnew2 : readCommit r2 dm.repo.nextOid =
      some ⟨dc.parents, r1.indexFile, normalizeMessage "draft", some (mkSig ts),
        some (mkSig ts)⟩ := by
    show lookupKey dm.repo.nextOid ((dm.repo.nextOid, _) :: dm.repo.commits) = _
    rw [lookupKey_cons, if_pos rfl]
  have hres2 : resolveRef r2 "draft" = some dm.repo.nextOid := by
    show lookupKey "draft" (setKey "draft" dm.repo.nextOid dm.repo.branches) = _
    exact lookupKey_setKey_self _ _ _
  refine ⟨rfl, rfl, ?_, hres2, ⟨r1.indexFile, hnew2⟩, ?_, ?_⟩
  · have := wfRepo_commitExplicit r1 "draft" "draft" dc.parents r1.indexFile ts hwf1
      (fun p hp => by
        obtain ⟨hlt, hsome⟩ := wfRepo_parent hwf hdmem hp
        exact ⟨by rw [hr1n]; omega, hsome⟩)
    exact this
  · show ((gitLog r2 "draft").getD []).length = ((gitLog dm.repo "draft").getD []).length
    rw [gitLog, gitLog, hres2, hd]
    have hn2 : r2.nextOid = dm.repo.nextOid + 1 := rfl
    simp only [Option.getD_some, hn2]
    rw [show chainF r2 (dm.repo.nextOid + 1 + 1) (some dm.repo.nextOid) =
        (dm.repo.nextOid, ⟨dc.parents, r1.indexFile, normalizeMessage "draft",
          some (mkSig ts), some (mkSig ts)⟩)
          :: chainF r2 (dm.repo.nextOid + 1) dc.parents.head? by
      rw [chainF, hnew2]]
    rw [show chainF dm.repo (dm.repo.nextOid + 1) (some d) =
        (d, dc) :: chainF dm.repo dm.repo.nextOid dc.parents.head? by
      rw [chainF, hdc]]
    simp only [List.length_cons]
    congr 1
    cases hph : dc.parents.head? with
    | none => simp [chainF]
    | some p =>
        have hpd : p < d := (wfRepo_parent hwf hdmem (head?_mem hph)).1
        rw [chainF_agree hwf hread2 (dm.repo.nextOid + 1) p (by omega),
          chainF_fuel hwf p (dm.repo.nextOid + 1) dm.repo.nextOid (by omega) (by omega)]
  · show (resolveRef r2 "draft").bind _ = _
    rw [hres2]
    simp [hnew2]

/-- C4: on a ready, well-formed state whose `draft` ref resolves to a stored
commit, any sequence of `updateDraft` calls leaves the number of commits
reachable from `draft` exactly as it was (no history growth beyond the
bootstrap commit) and keeps the recorded parent list of `draft`'s head
commit unchanged: every call amends in place. -/
theorem updateDraft_never_grows_history (dm : DM) (d : Nat) (dc : Commit)
    (hready : dm.session.draftReady = true)
    (hwf : wfRepo dm.repo = true)
    (hd : resolveRef dm.repo "draft" = some d)
    (hdc : readCommit dm.repo d = some dc) :
    ∀ L : List (String × Option Metadata × Nat),
      draftChainLen (runUpdates dm L) = draftChainLen dm ∧
      draftParents (runUpdates dm L) = draftParents dm := by
  have main : ∀ L : List (String × Option Metadata × Nat),
      ∀ (dm : DM) (d : Nat) (dc : Commit),
      dm.session.draftReady = true → wfRepo dm.repo = true →
      resolveRef dm.repo "draft" = some d → readCommit dm.repo d = some dc →
      draftChainLen (runUpdates dm L) = draftChainLen dm ∧
      draftParents (runUpdates dm L) = some dc.parents := by
    intro L
    induction L with
    | nil =>
        intro dm d dc _ _ hd hdc
        exact ⟨rfl, by rw [runUpdates, draftParents, hd]; simp [hdc]⟩
    | cons step rest ih =>
        intro dm d dc hready hwf hd hdc
        obtain ⟨hok, hsess, hwf2, hres2, ⟨tr, hrc2⟩, hlen, hpar⟩ :=
          updateDraft_step dm step.1 step.2.1 step.2.2 d dc hready hwf hd hdc
        have hready2 : (updateDraft dm step.1 step.2.1 step.2.2).2.session.draftReady
            = true := by rw [hsess]; exact hready
        have hrec := ih ((updateDraft dm step.1 step.2.1 step.2.2).2) dm.repo.nextOid
          ⟨dc.parents, tr, normalizeMessage "draft", some (mkSig step.2.2),
            some (mkSig step.2.2)⟩
          hready2 hwf2 hres2 hrc2
        rw [runUpdates]
        exact ⟨hrec.1.trans hlen, hrec.2⟩
  intro L
  have h := main L dm d dc hready hwf hd hdc
  have hdp : draftParents dm = some dc.parents := by
    rw [draftParents, hd]
    simp [hdc]
  exact ⟨h.1, h.2.trans hdp.symm⟩

/-- The demonstration autosave sequence: two updates, the second with
metadata. -/
def demoUpdates : List (String × Option Metadata × Nat) :=
  [("# Hello", none, 1), ("# Hello again", some [("title", "A")], 2)]

/-- C4 witness: on the concrete bootstrap state (history length 2: sentinel
draft commit over the initial commit), the demonstration updates leave the
draft history length at exactly 2. -/
theorem updateDraft_never_grows_history_app :
    draftChainLen (runUpdates dmBoot demoUpdates) = 2 ∧ draftChainLen dmBoot = 2 := by
  have h := updateDraft_never_grows_history dmBoot 1 bootDraftCommit
    (by decide) (by decide) (by decide) (by decide) demoUpdates
  have h2 : draftChainLen dmBoot = 2 := by decide
  exact ⟨h.1.trans h2, h2⟩

/-! ## C5 — total, most-recently-saved-wins load -/

/-- C5: on a ready session `loadDocument` is total — it returns a value (and
the unchanged state) for every repository state, never raising on an absent
base ref, absent draft ref, missing tracked file or empty content (those
become the empty view); when both refs resolve to stored commits, it
returns the draft's view exactly when the draft's effective committer
timestamp is at least the base's, the base's view otherwise; with no draft
ref it returns the base's view, and with neither ref the empty defaults. -/
theorem loadDocument_total_recency (dm : DM) (ts : Nat)
    (hready : dm.session.draftReady = true) :
    (∃ v, loadDocument dm ts = (.ok v, dm)) ∧
    (∀ bo bc dr dcm, resolveRef dm.repo (selectedBase dm.session) = some bo →
      readCommit dm.repo bo = some bc →
      resolveRef dm.repo "draft" = some dr →
      readCommit dm.repo dr = some dcm →
      loadDocument dm ts =
        (.ok (if committerTsOrZero bc ≤ committerTsOrZero dcm
          then contentView dcm.tree else contentView bc.tree), dm)) ∧
    (∀ bo bc, resolveRef dm.repo "draft" = none →
      resolveRef dm.repo (selectedBase dm.session) = some bo →
      readCommit dm.repo bo = some bc →
      loadDocument dm ts = (.ok (contentView bc.tree), dm)) ∧
    (resolveRef dm.repo "draft" = none →
      resolveRef dm.repo (selectedBase dm.session) = none →
      loadDocument dm ts = (.ok emptyView, dm)) := by
  have hens : ensureDraftReady dm ts = (.ok (), dm) := by simp [ensureDraftReady, hready]
  refine ⟨?_, ?_, ?_, ?_⟩
  · unfold loadDocument
    rw [hens]
    simp only []
    rcases hdp : refPair dm.repo "draft" with _ | dp
    · exact ⟨_, rfl⟩
    · simp only []
      by_cases hge : dp.1 ≥ ((refPair dm.repo (selectedBase dm.session)).getD
          (0, emptyView)).1
      · exact ⟨dp.2, by rw [if_pos hge]⟩
      · exact ⟨_, by rw [if_neg hge]⟩
  · intro bo bc dr dcm hbo hbc hdr hdcm
    unfold loadDocument
    rw [hens]
    simp only []
    rw [show refPair dm.repo "draft"
        = some (committerTsOrZero dcm, contentView dcm.tree) by
      simp [refPair, hdr, hdcm]]
    rw [show refPair dm.repo (selectedBase dm.session)
        = some (committerTsOrZero bc, contentView bc.tree) by
      simp [refPair, hbo, hbc]]
    simp only [Option.getD_some, ge_iff_le]
    rcases le_or_lt (committerTsOrZero bc) (committerTsOrZero dcm) with hle | hlt
    · simp [hle]
    · simp [hlt, not_le.mpr hlt]
  · intro bo bc hdr hbo hbc
    unfold loadDocument
    rw [hens]
    simp only []
    rw [show refPair dm.repo "draft" = none by simp [refPair, hdr]]
    rw [show refPair dm.repo (selectedBase dm.session)
        = some (committerTsOrZero bc, contentView bc.tree) by
      simp [refPair, hbo, hbc]]
    rfl
  · intro hdr hbo
    unfold loadDocument
    rw [hens]
    simp only []
    rw [show refPair dm.repo "draft" = none by simp [refPair, hdr]]
    rw [show refPair dm.repo (selectedBase dm.session) = none by simp [refPair, hbo]]
    rfl

/-- `dmBoot` after one autosave with metadata at clock 1. -/
def dmEdit : DM := (updateDraft dmBoot "# Hello" (some [("title", "A")]) 1).2

/-- C5 witness: on the edited state the draft (timestamp 1) beats the base
(timestamp 0) and `loadDocument` returns the draft's parsed view. -/
theorem loadDocument_total_recency_app :
    loadDocument dmEdit 5 =
      (.ok ⟨"\n# Hello", [("title", "A")]⟩, dmEdit) := by
  have h := (loadDocument_total_recency dmEdit 5 (by decide)).2.1 0
    ⟨[], some "", "Initial commit\n", some (mkSig 0), some (mkSig 0)⟩ 2
    ⟨[0], some "---\ntitle: A\n---\n\n# Hello", "draft\n", some (mkSig 1),
      some (mkSig 1)⟩
    (by decide) (by decide) (by decide) (by decide)
  rw [h]
  decide

/-! ## C7 — history of the selected base ref -/

/-- The normalized form of any commit message ends with a newline, so it
never equals the bare sentinel string `"draft"`. -/
theorem normalizeMessage_ne_sentinel (msg : String) : normalizeMessage msg ≠ "draft" := by
  intro h
  have hd : normalizeMessageChars msg.data = "draft".data := congrArg String.data h
  have hlast : (normalizeMessageChars msg.data).getLast? = some '\n' := by
    unfold normalizeMessageChars
    exact List.getLast?_concat _
  rw [hd] at hlast
  exact absurd hlast (by decide)

/-- The sentinel filter keeps every commit whose message is in normalized
stored form: on the program's own commits it removes nothing. -/
theorem filter_sentinel_vacuous : ∀ l : List (Nat × Commit),
    (∀ oc ∈ l, ∃ str, oc.2.message = normalizeMessage str) →
    (l.filter fun oc => oc.2.message != "draft") = l := by
  intro l
  induction l with
  | nil => intro _; rfl
  | cons oc rest ih =>
      intro hl
      obtain ⟨str, hstr⟩ := hl oc (List.mem_cons_self _ _)
      have hp : (oc.2.message != "draft") = true := by
        rw [hstr]
        exact bne_iff_ne.mpr (normalizeMessage_ne_sentinel str)
      rw [List.filter_cons, if_pos hp,
        ih fun x hx => hl x (List.mem_cons_of_mem _ hx)]

/-- C7 (amended): on a ready session `getHistory` yields, for the currently
selected base ref, the first-parent chain from its head (newest first),
each entry carrying the identifier, the message, the second-granularity
effective timestamp (committer, falling back to author, then 0) scaled by
1000 to milliseconds, and the author name defaulting to `"Unknown"`; a
missing ref yields the empty list, not an error.  The sentinel comparison
`message !== "draft"` in the filter matches no stored commit, because
messages are normalized with a trailing newline when committed: the filter
removes nothing, and synthetic draft commits are not filtered out. -/
theorem getHistory_shape (dm : DM) (ts : Nat)
    (hready : dm.session.draftReady = true) :
    (resolveRef dm.repo (selectedBase dm.session) = none →
      getHistory dm ts = (.ok [], dm)) ∧
    (∀ h, resolveRef dm.repo (selectedBase dm.session) = some h →
      getHistory dm ts =
        (.ok (((chainF dm.repo (dm.repo.nextOid + 1) (some h)).filter
            fun oc => oc.2.message != "draft").map
          fun oc =>
            ⟨oc.1, oc.2.message,
              (match oc.2.committer with
               | some s => s.timestamp
               | none =>
                 match oc.2.author with
                 | some s => s.timestamp
                 | none => 0) * 1000,
              match oc.2.author with
              | some s => s.name
              | none => "Unknown"⟩), dm)) ∧
    (∀ msg : String, normalizeMessage msg ≠ "draft") ∧
    (∀ l : List (Nat × Commit),
      (∀ oc ∈ l, ∃ str, oc.2.message = normalizeMessage str) →
      (l.filter fun oc => oc.2.message != "draft") = l) := by
  have hens : ensureDraftReady dm ts = (.ok (), dm) := by simp [ensureDraftReady, hready]
  refine ⟨?_, ?_, normalizeMessage_ne_sentinel, filter_sentinel_vacuous⟩
  · intro hnone
    unfold getHistory
    rw [hens]
    simp only []
    rw [show gitLog dm.repo (selectedBase dm.session) = none by rw [gitLog, hnone]]
  · intro h hh
    unfold getHistory
    rw [hens]
    simp only []
    rw [show gitLog dm.repo (selectedBase dm.session)
        = some (chainF dm.repo (dm.repo.nextOid + 1) (some h)) by rw [gitLog, hh]]
    rfl

/-- C7 (counterexample): synthetic draft commits are not filtered out of
the history.  After creating thread `t` at the draft head and switching
onto it, the selected base ref's head is the bootstrap sentinel commit
(commit 1, stored message `"draft\n"`), and `getHistory` returns it as the
newest entry instead of removing it. -/
theorem sentinel_commit_in_history :
    (getHistory dmSwitched 6).1 =
      .ok [⟨1, "draft\n", 0, "FocusDoc"⟩, ⟨0, "Initial commit\n", 0, "FocusDoc"⟩] ∧
    readCommit dmSwitched.repo 1 = some bootDraftCommit ∧
    bootDraftCommit.message = normalizeMessage "draft" := by
  decide

/-- C7 witness: the amended theorem instantiated on the drifted state:
`main`'s chain is the out-of-band commit (timestamp 1 · 1000) over the
initial commit, both with the trailing-newline messages and neither
removed. -/
theorem getHistory_shape_app :
    getHistory dmDrift 8 =
      (.ok [⟨2, "out-of-band\n", 1000, "FocusDoc"⟩,
            ⟨0, "Initial commit\n", 0, "FocusDoc"⟩], dmDrift) := by
  have h := (getHistory_shape dmDrift 8 (by decide)).2.1 2 (by decide)
  rw [h]
  decide

/-! ## C10 — the sentinel filter is exact string equality, and never fires -/

/-- C10 (amended): the `getHistory` filter is exact string equality with
`"draft"` — no returned entry ever has that exact message — but commit
messages are stored in normalized form with a trailing newline, so the
comparison never matches a real commit: a base commit finalized with the
caller-supplied message exactly `"draft"` is stored (and read back) as
`"draft\n"` and is returned by `getHistory` as `main`'s newest entry, not
omitted. -/
theorem getHistory_sentinel_exact_match :
    (∀ (dm : DM) (ts : Nat) (l : List HistoryEntry) (dm2 : DM),
      getHistory dm ts = (.ok l, dm2) → ∀ e ∈ l, e.message ≠ "draft") ∧
    normalizeMessage "draft" = "draft\n" ∧
    ("draft\n" : String) ≠ "draft" ∧
    (getHistory (finalizeCommit dmBoot "draft" 3).2 4).1 =
      .ok [⟨2, "draft\n", 3000, "FocusDoc"⟩,
           ⟨0, "Initial commit\n", 0, "FocusDoc"⟩] := by
  refine ⟨?_, by decide, by decide, by decide⟩
  intro dm ts l dm2 hok e he
  unfold getHistory at hok
  rcases hens : ensureDraftReady dm ts with ⟨res, dm1⟩
  rw [hens] at hok
  rcases res with e2 | u
  · simp at hok
  · simp only [] at hok
    rcases hlog : gitLog dm1.repo (selectedBase dm1.session) with _ | entries
    · rw [hlog] at hok
      simp only [] at hok
      have : l = [] := by
        have := congrArg Prod.fst hok
        simpa using this.symm
      subst this
      exact absurd he (by simp)
    · rw [hlog] at hok
      simp only [] at hok
      have hl : ((entries.filter fun oc => oc.2.message != "draft").map historyEntryOf)
          = l := by
        have := congrArg Prod.fst hok
        simpa using this
      rw [← hl] at he
      obtain ⟨oc, hoc, hoce⟩ := List.mem_map.mp he
      have hfilt := (List.mem_filter.mp hoc).2
      have hne : oc.2.message ≠ "draft" := by simpa using hfilt
      rw [← hoce]
      exact hne

/-- C10 (counterexample): the finalized commit with caller message exactly
`"draft"` is not omitted: finalize succeeds with commit 2, `main` resolves
to it, its stored message reads back as `"draft\n"`, and the entry with
identifier 2 is a member of the list `getHistory` returns. -/
theorem finalized_draft_message_not_omitted :
    (finalizeCommit dmBoot "draft" 3).1 = .ok 2 ∧
    resolveRef (finalizeCommit dmBoot "draft" 3).2.repo "main" = some 2 ∧
    (readCommit (finalizeCommit dmBoot "draft" 3).2.repo 2).map Commit.message
      = some "draft\n" ∧
    (getHistory (finalizeCommit dmBoot "draft" 3).2 4).1 =
      .ok [⟨2, "draft\n", 3000, "FocusDoc"⟩,
           ⟨0, "Initial commit\n", 0, "FocusDoc"⟩] ∧
    (⟨2, "draft\n", 3000, "FocusDoc"⟩ : HistoryEntry) ∈
      ([⟨2, "draft\n", 3000, "FocusDoc"⟩, ⟨0, "Initial commit\n", 0, "FocusDoc"⟩] :
        List HistoryEntry) := by
  decide

/-- C10 witness: the exactness half applied to the concrete post-finalize
history, whose newest entry is the non-omitted finalized commit. -/
theorem getHistory_sentinel_exact_match_app :
    (⟨2, "draft\n", 3000, "FocusDoc"⟩ : HistoryEntry).message ≠ "draft" :=
  getHistory_sentinel_exact_match.1 (finalizeCommit dmBoot "draft" 3).2 4
    [⟨2, "draft\n", 3000, "FocusDoc"⟩, ⟨0, "Initial commit\n", 0, "FocusDoc"⟩]
    (finalizeCommit dmBoot "draft" 3).2 (by decide) _ (by decide)

/-! ## C8 — codec round trip

The structural lemmas below locate the first occurrence of a pattern in the
serialized document: the closing delimiter search of the frontmatter parser
lands exactly on the serializer's own delimiter, because no dumped metadata
line can begin with a dash and the pattern starts with a newline. -/

/-- No occurrence of `pat` starts inside `a` when scanning `a ++ pat ++ b`. -/
def NoHit (pat a b : List Char) : Prop :=
  ∀ a1 x r, a = a1 ++ x :: r → isPre pat (x :: (r ++ (pat ++ b))) = false

theorem isPre_append_self : ∀ p b : List Char, isPre p (p ++ b) = true := by
  intro p
  induction p with
  | nil => intro b; rfl
  | cons c cs ih => intro b; simp [isPre, ih]

theorem drop_append_len : ∀ p b : List Char, (p ++ b).drop p.length = b := by
  intro p
  induction p with
  | nil => intro b; rfl
  | cons c cs ih => intro b; simp [ih b]

theorem splitAtPat_cons (pat : List Char) (c : Char) (rest : List Char) :
    splitAtPat pat (c :: rest) =
      if isPre pat (c :: rest) then some ([], (c :: rest).drop pat.length)
      else
        match splitAtPat pat rest with
        | some pr => some (c :: pr.1, pr.2)
        | none => none := rfl

/-- The split lands on the marked occurrence when none starts earlier. -/
theorem splitAtPat_first (pat : List Char) (hpat : pat ≠ []) :
    ∀ a b : List Char, NoHit pat a b →
      splitAtPat pat (a ++ (pat ++ b)) = some (a, b) := by
  intro a
  induction a with
  | nil =>
      intro b _
      rcases hp : pat with _ | ⟨p, ps⟩
      · exact absurd hp hpat
      · rw [List.nil_append, List.cons_append, splitAtPat_cons,
          if_pos (by rw [← List.cons_append]; exact isPre_append_self (p :: ps) b),
          ← List.cons_append, drop_append_len]
  | cons c a2 ih =>
      intro b hnh
      have hfalse : isPre pat (c :: (a2 ++ (pat ++ b))) = false := hnh [] c a2 rfl
      have hnh2 : NoHit pat a2 b := fun a1 x r h => hnh (c :: a1) x r (by rw [h]; rfl)
      rw [List.cons_append, splitAtPat_cons, if_neg (by simp [hfalse]), ih b hnh2]

theorem linesOf_noNl : ∀ l : List Char, '\n' ∉ l → linesOf l = [l] := by
  intro l
  induction l with
  | nil => intro; rfl
  | cons c cs ih =>
      intro h
      have hc : ¬c = '\n' := fun e => h (by rw [e]; exact List.mem_cons_self _ _)
      have hcs : '\n' ∉ cs := fun hm => h (List.mem_cons_of_mem _ hm)
      rw [linesOf, if_neg hc, ih hcs]

theorem linesOf_append_nl : ∀ l rest : List Char, '\n' ∉ l →
    linesOf (l ++ '\n' :: rest) = l :: linesOf rest := by
  intro l
  induction l with
  | nil => intro rest _; simp [linesOf]
  | cons c cs ih =>
      intro rest h
      have hc : ¬c = '\n' := fun e => h (by rw [e]; exact List.mem_cons_self _ _)
      have hcs : '\n' ∉ cs := fun hm => h (List.mem_cons_of_mem _ hm)
      rw [List.cons_append, linesOf, if_neg hc, ih rest hcs]

theorem linesOf_joinLines : ∀ L : List (List Char), (∀ l ∈ L, '\n' ∉ l) → L ≠ [] →
    linesOf (joinLines L) = L := by
  intro L
  induction L with
  | nil => intro _ hne; exact absurd rfl hne
  | cons l ls ih =>
      intro h _
      cases ls with
      | nil =>
          show linesOf l = [l]
          exact linesOf_noNl l (h l (List.mem_cons_self _ _))
      | cons l2 ls2 =>
          show linesOf (l ++ '\n' :: joinLines (l2 :: ls2)) = l :: l2 :: ls2
          rw [linesOf_append_nl l _ (h l (List.mem_cons_self _ _)),
            ih (fun x hx => h x (List.mem_cons_of_mem _ hx)) (by simp)]

/-- Every newline inside `l` is followed by a non-dash character (or by
nothing). -/
def NlNotDash (l : List Char) : Prop :=
  ∀ a1 a2, l = a1 ++ '\n' :: a2 → a2.head? ≠ some '-'

theorem nlNotDash_of_not_mem {l : List Char} (h : '\n' ∉ l) : NlNotDash l := by
  intro a1 a2 he
  exact absurd (by rw [he]; exact List.mem_append_right _ (List.mem_cons_self _ _)) h

theorem nlNotDash_append : ∀ l1 : List Char, '\n' ∉ l1 →
    ∀ l2 : List Char, NlNotDash l2 → NlNotDash (l1 ++ l2) := by
  intro l1
  induction l1 with
  | nil => intro _ l2 h2; simpa using h2
  | cons c cs ih =>
      intro h1 l2 h2 a1 a2 he
      have hc : c ≠ '\n' := fun e => h1 (by rw [e]; exact List.mem_cons_self _ _)
      have hcs : '\n' ∉ cs := fun hm => h1 (List.mem_cons_of_mem _ hm)
      cases a1 with
      | nil =>
          rw [List.nil_append] at he
          rw [List.cons_append] at he
          injection he with hx _
          exact absurd hx hc
      | cons x a1b =>
          rw [List.cons_append] at he
          rw [List.cons_append] at he
          injection he with _ ht
          exact ih hcs l2 h2 a1b a2 ht

theorem nlNotDash_cons_nl {l : List Char} (hhead : l.head? ≠ some '-')
    (h : NlNotDash l) : NlNotDash ('\n' :: l) := by
  intro a1 a2 he
  cases a1 with
  | nil =>
      rw [List.nil_append] at he
      injection he with _ ht
      rw [← ht]
      exact hhead
  | cons x a1b =>
      rw [List.cons_append] at he
      injection he with _ ht
      exact h a1b a2 ht

theorem joinLines_head_ne_dash : ∀ L : List (List Char),
    (∀ l ∈ L, l.head? ≠ some '-') → (∀ l ∈ L, l ≠ []) →
    (joinLines L).head? ≠ some '-' := by
  intro L hh hne
  cases L with
  | nil => simp [joinLines]
  | cons l ls =>
      cases ls with
      | nil => exact hh l (List.mem_cons_self _ _)
      | cons l2 ls2 =>
          show (l ++ '\n' :: joinLines (l2 :: ls2)).head? ≠ some '-'
          rcases hl : l with _ | ⟨c0, cs⟩
          · exact absurd hl (hne l (List.mem_cons_self _ _))
          · have := hh l (List.mem_cons_self _ _)
            rw [hl] at this
            simpa using this

theorem nlNotDash_joinLines : ∀ L : List (List Char), (∀ l ∈ L, '\n' ∉ l) →
    (∀ l ∈ L, l.head? ≠ some '-') → (∀ l ∈ L, l ≠ []) →
    NlNotDash (joinLines L) := by
  intro L
  induction L with
  | nil =>
      intro _ _ _ a1 a2 he
      exact absurd he.symm (by simp [joinLines])
  | cons l ls ih =>
      intro hnl hh hne
      cases ls with
      | nil => exact nlNotDash_of_not_mem (hnl l (List.mem_cons_self _ _))
      | cons l2 ls2 =>
          show NlNotDash (l ++ '\n' :: joinLines (l2 :: ls2))
          refine nlNotDash_append l (hnl l (List.mem_cons_self _ _)) _
            (nlNotDash_cons_nl ?_ ?_)
          · exact joinLines_head_ne_dash _ (fun x hx => hh x (List.mem_cons_of_mem _ hx))
              (fun x hx => hne x (List.mem_cons_of_mem _ hx))
          · exact ih (fun x hx => hnl x (List.mem_cons_of_mem _ hx))
              (fun x hx => hh x (List.mem_cons_of_mem _ hx))
              (fun x hx => hne x (List.mem_cons_of_mem _ hx))

/-- The frontmatter close pattern never occurs inside the dumped block: any
candidate start is either a non-newline character or a newline followed by a
non-dash. -/
theorem noHit_frontmatter (body b : List Char)
    (hnnd : NlNotDash ('\n' :: body)) :
    NoHit ['\n', '-', '-', '-'] ('\n' :: body) b := by
  intro a1 x r hdecomp
  by_cases hx : x = '\n'
  · subst hx
    cases r with
    | nil => simp [isPre]
    | cons ch t =>
        have hch : ch ≠ '-' := by
          have := hnnd a1 (ch :: t) hdecomp
          simpa using this
        have hch2 : (('-' : Char) = ch) = False := eq_false fun e => hch e.symm
        simp [isPre, hch2]
  · have hx2 : (('\n' : Char) = x) = False := eq_false fun e => hx e.symm
    simp [isPre, hx2]

/-! ### The plain-scalar metadata fragment -/

/-- A key the modelled YAML codec dumps verbatim: nonempty, no newline, no
colon, and not starting with a dash. -/
def plainKey (k : String) : Bool :=
  decide (k.data ≠ []) && decide ('\n' ∉ k.data) && decide (':' ∉ k.data) &&
    decide (k.data.head? ≠ some '-')

/-- A metadata entry of plain string scalars. -/
def plainEntry (kv : String × String) : Bool :=
  plainKey kv.1 && decide ('\n' ∉ kv.2.data)

/-- Metadata consisting of plain string scalars only. -/
def plainMeta (m : Metadata) : Bool := m.all plainEntry

theorem splitColon_line (k v : List Char) (hk : ':' ∉ k) :
    splitAtPat [':', ' '] (k ++ ([':', ' '] ++ v)) = some (k, v) := by
  apply splitAtPat_first _ (by decide)
  intro a1 x r hdecomp
  have hx : x ∈ k := by
    rw [hdecomp]
    exact List.mem_append_right _ (List.mem_cons_self _ _)
  have hxc : ((':' : Char) = x) = False := eq_false fun e => hk (e ▸ hx)
  simp [isPre, hxc]

theorem yamlLoadLine_lineOf (k v : String) (hk : ':' ∉ k.data) :
    yamlLoadLine (yamlLineOf (k, v)) = some (k, v) := by
  unfold yamlLoadLine yamlLineOf
  rw [show (k, v).1.data ++ ':' :: ' ' :: (k, v).2.data
      = k.data ++ ([':', ' '] ++ v.data) from rfl]
  rw [splitColon_line k.data v.data hk]

/-- The facts `plainMeta` gives about every dumped line. -/
theorem plainMeta_line_facts (m : Metadata) (hm : plainMeta m = true) :
    ∀ l ∈ m.map yamlLineOf, '\n' ∉ l ∧ l.head? ≠ some '-' ∧ l ≠ [] := by
  intro l hl
  obtain ⟨kv, hkv, hrfl⟩ := List.mem_map.mp hl
  have hent : plainEntry kv = true := List.all_eq_true.mp hm kv hkv
  unfold plainEntry plainKey at hent
  simp only [Bool.and_eq_true, decide_eq_true_eq] at hent
  obtain ⟨⟨⟨⟨hk0, hk1⟩, hk2⟩, hk3⟩, hv1⟩ := hent
  subst hrfl
  unfold yamlLineOf
  refine ⟨?_, ?_, ?_⟩
  · intro hmem
    rcases List.mem_append.mp hmem with h | h
    · exact hk1 h
    · simp only [List.mem_cons] at h
      rcases h with h | h | h
      · exact absurd h (by decide)
      · exact absurd h (by decide)
      · exact hv1 h
  · rcases hkd : kv.1.data with _ | ⟨c0, cs⟩
    · exact absurd hkd hk0
    · have hc0 : c0 ≠ '-' := by
        rw [hkd] at hk3
        simpa using hk3
      simpa using hc0
  · intro he
    rcases hkd : kv.1.data with _ | ⟨c0, cs⟩
    · exact absurd hkd hk0
    · rw [hkd] at he
      simp at he

theorem yamlLoadLine_nil : yamlLoadLine [] = none := rfl

theorem filterMap_yamlLines : ∀ m : Metadata, plainMeta m = true →
    (m.map yamlLineOf).filterMap yamlLoadLine = m := by
  intro m
  induction m with
  | nil => intro; rfl
  | cons kv ms ih =>
      intro hm
      have hall := hm
      unfold plainMeta at hall
      rw [List.all_cons, Bool.and_eq_true] at hall
      have hcolon : ':' ∉ kv.1.data := by
        have := hall.1
        unfold plainEntry plainKey at this
        simp only [Bool.and_eq_true, decide_eq_true_eq] at this
        exact this.1.1.2
      rw [List.map_cons, List.filterMap_cons]
      rw [show yamlLoadLine (yamlLineOf kv) = some (kv.1, kv.2) from
        yamlLoadLine_lineOf kv.1 kv.2 hcolon]
      rw [ih hall.2]

/-- Loading the dumped block (with the leading newline the frontmatter
parser keeps) recovers the metadata. -/
theorem yamlLoadChars_cons_dump (m : Metadata) (hm : plainMeta m = true)
    (hne : m ≠ []) :
    yamlLoadChars ('\n' :: yamlDumpChars m) = m := by
  unfold yamlLoadChars yamlDumpChars
  rw [show linesOf ('\n' :: joinLines (m.map yamlLineOf))
      = [] :: linesOf (joinLines (m.map yamlLineOf)) by rw [linesOf]; simp]
  rw [linesOf_joinLines _ (fun l hl => (plainMeta_line_facts m hm l hl).1)
    (by
      intro he
      exact hne (List.map_eq_nil_iff.mp he))]
  rw [List.filterMap_cons, yamlLoadLine_nil]
  exact filterMap_yamlLines m hm

/-! ### Assembling the round trip -/

theorem string_data_append (a b : String) : (a ++ b).data = a.data ++ b.data := rfl

theorem string_eq_of_data {a b : String} (h : a.data = b.data) : a = b := by
  cases a
  cases b
  exact congrArg String.mk h

/-- The frontmatter parser on a document wrapped in the serializer's
delimiters: the data before the close delimiter is loaded, the tail keeps
everything after one stripped newline. -/
theorem matterChars_wrapped (anm b : List Char)
    (hhead : (anm ++ (['\n', '-', '-', '-'] ++ b)).head? ≠ some '-')
    (hnh : NoHit ['\n', '-', '-', '-'] anm b) :
    matterChars ('-' :: '-' :: '-' :: (anm ++ (['\n', '-', '-', '-'] ++ b)))
      = (yamlLoadChars anm, stripLf (stripCr b)) := by
  unfold matterChars
  rw [if_neg (by simp [isPre])]
  rw [if_neg (by simpa using hhead)]
  rw [show ('-' :: '-' :: '-' :: (anm ++ (['\n', '-', '-', '-'] ++ b))).drop 3
      = anm ++ (['\n', '-', '-', '-'] ++ b) from rfl]
  simp only []
  rw [splitAtPat_first ['\n', '-', '-', '-'] (by decide) anm b hnh]

theorem joinLines_ne_nil (L : List (List Char)) (hne : ∀ l ∈ L, l ≠ []) (h : L ≠ []) :
    joinLines L ≠ [] := by
  cases L with
  | nil => exact absurd rfl h
  | cons l ls =>
      cases ls with
      | nil => exact hne l (List.mem_cons_self _ _)
      | cons l2 ls2 =>
          show l ++ '\n' :: joinLines (l2 :: ls2) ≠ []
          simp

/-- C8 (amended): for metadata consisting of plain string scalars,
`parseDocument ∘ stringifyDocument` reproduces the metadata exactly, and
reproduces the content with a single leading newline prepended (the
frontmatter parser strips only one of the serializer's two newlines after
the closing delimiter); and `stringifyDocument` with empty metadata
produces the syntactically valid delimited document
`"---\n---"` followed by a blank line and the content. -/
theorem stringify_parse_roundTrip (m : Metadata) (c : String)
    (hm : plainMeta m = true) :
    parseDocument (stringifyDocument m c) = ⟨m, "\n" ++ c⟩ ∧
    stringifyDocument [] c = "---\n---\n\n" ++ c := by
  constructor
  · rcases m with _ | ⟨kv, ms⟩
    · have hdata : (stringifyDocument [] c).data
          = '-' :: '-' :: '-' ::
            (([] : List Char) ++ (['\n', '-', '-', '-'] ++ ('\n' :: '\n' :: c.data))) :=
        rfl
      have hnh : NoHit ['\n', '-', '-', '-'] [] ('\n' :: '\n' :: c.data) := by
        intro a1 x r h
        simp at h
      have hmc := matterChars_wrapped [] ('\n' :: '\n' :: c.data) (by simp) hnh
      have hpd : parseDocument (stringifyDocument [] c)
          = ⟨(matterChars ((stringifyDocument [] c).data)).1,
             ⟨(matterChars ((stringifyDocument [] c).data)).2⟩⟩ := rfl
      rw [hpd, hdata, hmc]
      rw [show ("\n" ++ c) = (⟨'\n' :: c.data⟩ : String) from string_eq_of_data rfl]
      rfl
    · have hfacts := plainMeta_line_facts (kv :: ms) hm
      have hblock : (⟨yamlDumpChars (kv :: ms)⟩ : String) ≠ "" := by
        intro he
        exact joinLines_ne_nil _ (fun l hl => (hfacts l hl).2.2) (by simp)
          (congrArg String.data he)
      have hdata : (stringifyDocument (kv :: ms) c).data
          = '-' :: '-' :: '-' :: (('\n' :: yamlDumpChars (kv :: ms)) ++
              (['\n', '-', '-', '-'] ++ ('\n' :: '\n' :: c.data))) := by
        unfold stringifyDocument
        rw [if_neg (by simp)]
        simp only []
        rw [if_neg hblock]
        simp only [string_data_append]
        simp [List.append_assoc]
      have hnnd : NlNotDash ('\n' :: yamlDumpChars (kv :: ms)) :=
        nlNotDash_cons_nl
          (joinLines_head_ne_dash _ (fun l hl => (hfacts l hl).2.1)
            (fun l hl => (hfacts l hl).2.2))
          (nlNotDash_joinLines _ (fun l hl => (hfacts l hl).1)
            (fun l hl => (hfacts l hl).2.1) (fun l hl => (hfacts l hl).2.2))
      have hnh := noHit_frontmatter (yamlDumpChars (kv :: ms)) ('\n' :: '\n' :: c.data)
        hnnd
      have hmc := matterChars_wrapped ('\n' :: yamlDumpChars (kv :: ms))
        ('\n' :: '\n' :: c.data) (by simp) hnh
      have hpd : parseDocument (stringifyDocument (kv :: ms) c)
          = ⟨(matterChars ((stringifyDocument (kv :: ms) c).data)).1,
             ⟨(matterChars ((stringifyDocument (kv :: ms) c).data)).2⟩⟩ := rfl
      rw [hpd, hdata, hmc]
      rw [yamlLoadChars_cons_dump (kv :: ms) hm (by simp)]
      rw [show ("\n" ++ c) = (⟨'\n' :: c.data⟩ : String) from string_eq_of_data rfl]
      rfl
  · rfl

/-- C8 (counterexample): the round trip is not the identity on content —
already with empty metadata and content `"x"`, parsing the serialized
document returns content `"\nx"`, not `"x"`. -/
theorem stringify_parse_not_exact :
    parseDocument (stringifyDocument [] "x") = ⟨[], "\nx"⟩ ∧
    (parseDocument (stringifyDocument [] "x")).content ≠ "x" := by
  decide

/-- C8 witness: the amended round trip on one concrete plain entry. -/
theorem stringify_parse_roundTrip_app :
    parseDocument (stringifyDocument [("title", "A")] "hi")
      = ⟨[("title", "A")], "\nhi"⟩ ∧
    stringifyDocument [] "hi" = "---\n---\n\nhi" :=
  stringify_parse_roundTrip [("title", "A")] "hi" (by decide)

end FocusFire
